import Mathlib

/-!
Verification development for `man2qhelp.py`, a man-page to Qt Help converter.

The source program is shallowly embedded below:
* pure helper functions (`remove_extensions`, `result_name`, `man_path`,
  `title_tag`, the alias-directive regexes, the cross-reference regex) are
  translated to executable Lean functions on `String` / `List Char`;
* file modification times are rationals (`Mtime := ℚ`);
* the filesystem state touched by `do_level` (source directory listing,
  output directory, images directory, the listing of the original working
  directory) is explicit data threaded through a fold;
* external collaborators (the `groff` formatter, the decompression
  utilities, the stdlib HTML tokenizer) are modelled as oracles/inputs:
  a `SrcEntry` carries its already-decoded text, the converter is a
  function-valued field of the environment, and the HTML event stream is
  produced by a small tokenizer standing in for `html.parser.HTMLParser`.

Character classes of the Python regexes (`\w`, `\d`, `\s`, `str.lower`)
are modelled at ASCII precision.
-/

namespace Man2Qhelp

/-- Modification times, `os.path.getmtime` values.  The Python program
compares them with `abs(a - b) < 1.0`; rationals model this exactly. -/
abbrev Mtime : Type := ℚ

/-- `\w` of the Python regexes (ASCII model): letters, digits, underscore. -/
def isWordChar (c : Char) : Bool := c.isAlphanum || c = '_'

/-- The character class `[\w_-]` used by both alias-directive regexes. -/
def isWordDash (c : Char) : Bool := isWordChar c || c = '-'

/-- `\s` (ASCII model): the whitespace characters `str.strip` removes. -/
def isPySpace (c : Char) : Bool :=
  c = ' ' || c = '\t' || c = '\n' || c = '\r' || c = '\x0b' || c = '\x0c'

/-- `str.strip()` on the decoded source text. -/
def pyStrip (s : List Char) : List Char :=
  ((s.dropWhile isPySpace).reverse.dropWhile isPySpace).reverse

/-- `str.lower()` (ASCII model). -/
def pyLower (s : String) : String := String.mk (s.data.map Char.toLower)

/-- `os.path.basename`: the part after the last `/`. -/
def basenameL (s : List Char) : List Char :=
  (s.reverse.takeWhile (fun c => !(c = '/'))).reverse

/-- `os.path.basename` on `String`. -/
def basename (s : String) : String := String.mk (basenameL s.data)

/-- `os.path.splitext` for path components: splits at the last dot,
except that a name whose only dots are leading ones is not split. -/
def splitext (s : List Char) : List Char × List Char :=
  match s.reverse.dropWhile (fun c => !(c = '.')) with
  | '.' :: rootRev =>
      if rootRev.any (fun c => !(c = '.')) then
        (rootRev.reverse, '.' :: (s.reverse.takeWhile (fun c => !(c = '.'))).reverse)
      else (s, [])
  | _ => (s, [])

/-- `remove_extensions` from the source: repeatedly strip a trailing
extension as long as it is one of the given ones.  The recursion is fuelled;
`remove_extensions` below supplies fuel sufficient for any input (each
stripping step removes at least the dot). -/
def removeExtensionsF : Nat → List Char → List (List Char) → List Char
  | 0, source, _ => source
  | fuel + 1, source, exts =>
      let be := splitext source
      if be.2 ≠ [] ∧ be.2 ∈ exts then removeExtensionsF fuel be.1 exts
      else source

/-- `remove_extensions(source, *extensions)`. -/
def remove_extensions (source : List Char) (exts : List (List Char)) : List Char :=
  removeExtensionsF source.length source exts

/-- `result_name(source_name, level)`: expected rendered output name.
Strips only `.bz2` and `.<level>` (notably not `.gz`). -/
def result_name (source_name : String) (level : String) : String :=
  String.mk
      (remove_extensions (basenameL source_name.data)
        [".bz2".data, '.' :: level.data])
    ++ ".html"

/-- `IN_PATH % level`, optionally joined with a page name (`man_path`). -/
def man_path (level : Nat) (page : Option String) : String :=
  match page with
  | none => "/usr/share/man/man" ++ toString level
  | some p => "/usr/share/man/man" ++ toString level ++ "/" ++ p

/-- `<title>…</title>` wrapper (`title_tag` in the source). -/
def title_tag (text : String) : String := "<title>" ++ text ++ "</title>"

/-- Value of a nonempty digit string (`int` applied to a regex group). -/
def digitsToNat (ds : List Char) : Nat :=
  ds.foldl (fun acc c => acc * 10 + (c.toNat - '0'.toNat)) 0

/-!  ### The alias-directive regexes

`re.match(r"\.so\s+(?:.*?/)?man(\d+)/([\w_-]+)", alias)` (path form) and
`re.match(r"\.so\s+([\w_-]+\.(\d))", alias)` (dotted form).  Both are
anchored at the start and need not reach the end of the string.  Greedy
pieces (`\s+`, `\d+`, `[\w_-]+`) are each followed by a character their own
class rejects, so only the maximal repetition can succeed and plain
`takeWhile`/`dropWhile` scans are faithful; the lazy `(?:.*?/)?` prefix is
enumerated as: the empty prefix first, then each prefix ending in `/`
(stopping at a newline, which `.` does not match). -/

/-- Try `man(\d+)/([\w_-]+)` at the current position. -/
def tryManSeg (s : List Char) : Option (Nat × List Char) :=
  match s with
  | 'm' :: 'a' :: 'n' :: rest =>
      let ds := rest.takeWhile Char.isDigit
      if ds = [] then none
      else
        match rest.dropWhile Char.isDigit with
        | '/' :: r2 =>
            let nm := r2.takeWhile isWordDash
            if nm = [] then none else some (digitsToNat ds, nm)
        | _ => none
  | _ => none

/-- Enumerate the candidate positions of the lazy `(?:.*?/)?` prefix:
the current position, then the position after each subsequent `/`. -/
def findManSegF : Nat → List Char → Option (Nat × List Char)
  | 0, _ => none
  | fuel + 1, l =>
      match tryManSeg l with
      | some v => some v
      | none =>
          match l.dropWhile (fun c => !(c = '/' || c = '\n')) with
          | '/' :: rest => findManSegF fuel rest
          | _ => none

/-- The path-form alias regex, applied to the stripped directive line.
Returns `(category number, target page stem)`. -/
def parseAliasPath (s : List Char) : Option (Nat × List Char) :=
  match s with
  | '.' :: 's' :: 'o' :: rest =>
      if rest.takeWhile isPySpace = [] then none
      else findManSegF rest.length (rest.dropWhile isPySpace)
  | _ => none

/-- The dotted-form alias regex, applied to the stripped directive line.
Returns `(group 1 = "<name>.<digit>", category number)`. -/
def parseAliasDotted (s : List Char) : Option (List Char × Nat) :=
  match s with
  | '.' :: 's' :: 'o' :: rest =>
      if rest.takeWhile isPySpace = [] then none
      else
        let r := rest.dropWhile isPySpace
        let nm := r.takeWhile isWordDash
        if nm = [] then none
        else
          match r.dropWhile isWordDash with
          | '.' :: d :: _ =>
              if d.isDigit then some (nm ++ ['.', d], d.toNat - '0'.toNat)
              else none
          | _ => none
  | _ => none

/-!  ### Source documents and `src` -/

/-- One entry of the category's source directory listing.  `content` is the
already-decoded text (decompression by `bunzip2`/`gunzip` and the file read
are external collaborators).  The two `presentAt…` flags model whether the
file still exists when `os.path.getmtime` is called (line 225) and when
`src`'s `os.path.exists` check runs (line 102): a file can vanish between
the directory listing and either probe. -/
structure SrcEntry where
  fname : String
  mtime : Mtime
  content : String
  presentAtMtime : Bool
  presentAtRead : Bool
deriving DecidableEq, Repr

/-- Canonical page name computed by `src` (lines 106-116): one `splitext`
for a recognized compression suffix, then one more `splitext`. -/
def srcName (fname : String) : String :=
  let n1 :=
    if ".bz2".data.isSuffixOf fname.data || ".gz".data.isSuffixOf fname.data then
      String.mk (splitext fname.data).1
    else fname
  String.mk (splitext n1.data).1

/-- Result of `src`: decoded text, or a resolved alias candidate.
(`src` returning `None` — skip — is the `none` of the surrounding
`Option`.) -/
inductive SrcOut where
  | text (name : String) (data : String)
  | alias (name : String) (candidate : String)
deriving DecidableEq, Repr

/-- `glob.glob(alias_path + ".*")` over an injected directory listing:
full paths of the files of `man<lvl>` whose name extends `stem` by `.`
and anything.  `manDirs` maps a category number to that directory's
listing. -/
def globCandidates (manDirs : List (Nat × List String)) (lvl : Nat)
    (stem : String) : List String :=
  (((manDirs.lookup lvl).getD []).filter
      (fun f => (stem ++ ".").data.isPrefixOf f.data)).map
    (fun f => man_path lvl none ++ "/" ++ f)

/-- Lines 133-144: expand the alias path against the directory listing;
exactly one match resolves, zero or several are skipped. -/
def resolveAlias (manDirs : List (Nat × List String)) (lvl : Nat)
    (stem : String) (name : String) : Option SrcOut :=
  match globCandidates manDirs lvl stem with
  | [c] => some (SrcOut.alias name c)
  | _ => none

/-- `src(path)` (lines 101-146).  `none` is Python's `return None`:
missing file, not-understood alias, unresolved or ambiguous alias, or a
multi-line `.so` document (which falls off the end of the function). -/
def srcFn (manDirs : List (Nat × List String)) (e : SrcEntry) : Option SrcOut :=
  if !e.presentAtRead then none
  else
    let name := srcName e.fname
    let data := e.content
    if ".so ".data.isPrefixOf data.data then
      let stripped := pyStrip data.data
      if stripped.contains '\n' then none
      else
        match parseAliasPath stripped with
        | some (lvl, stem) => resolveAlias manDirs lvl (String.mk stem) name
        | none =>
            match parseAliasDotted stripped with
            | some (g1, lvl) => resolveAlias manDirs lvl (String.mk g1) name
            | none => none
    else some (SrcOut.text name data)

/-!  ### HTML post-processing: title rewrite -/

/-- Events of the stdlib `html.parser.HTMLParser` feed, as consumed by
`TitleFinder.handle_starttag` / `handle_endtag` / `handle_data`. -/
inductive HtmlEvent where
  | startTag (tag : String)
  | endTag (tag : String)
  | text (data : String)
deriving DecidableEq, Repr

/-- Lowercased tag name of a raw tag body (`HTMLParser` lowercases names
and `TitleFinder` ignores attributes). -/
def tagName (l : List Char) : String :=
  String.mk ((l.takeWhile (fun c => !(c = ' ' || c = '\t' || c = '\n'))).map Char.toLower)

/-- Model of the stdlib HTML tokenizer (an external collaborator): splits
the document into start-tag, end-tag and character-data events.  Fuelled
structural recursion; `tokenize` supplies sufficient fuel. -/
def tokenizeF : Nat → List Char → List HtmlEvent
  | 0, _ => []
  | _ + 1, [] => []
  | fuel + 1, c :: rest =>
      if c = '<' then
        match rest.dropWhile (fun x => !(x = '>')) with
        | '>' :: tail =>
            let body := rest.takeWhile (fun x => !(x = '>'))
            let ev :=
              match body with
              | '/' :: nm => HtmlEvent.endTag (tagName nm)
              | _ => HtmlEvent.startTag (tagName body)
            ev :: tokenizeF fuel tail
        | _ => [HtmlEvent.text (String.mk (c :: rest))]
      else
        HtmlEvent.text (String.mk ((c :: rest).takeWhile (fun x => !(x = '<'))))
          :: tokenizeF fuel ((c :: rest).dropWhile (fun x => !(x = '<')))

/-- Tokenize an HTML document into parser events. -/
def tokenize (s : List Char) : List HtmlEvent := tokenizeF s.length s

/-- State of the `TitleFinder` HTML parser subclass (lines 149-178). -/
structure TitleFinder where
  in_title : Bool
  title : String
deriving DecidableEq, Repr

/-- One parser event, exactly as the three handlers process it: a second
`<title>` start is warned about and ignored (`len(self._title) == 0`
guards entering), data is accumulated only inside the first title. -/
def TitleFinder.handle (st : TitleFinder) (ev : HtmlEvent) : TitleFinder :=
  match ev with
  | HtmlEvent.startTag tag =>
      if tag = "title" && !st.in_title then
        if st.title.length = 0 then { st with in_title := true } else st
      else st
  | HtmlEvent.endTag tag =>
      if tag = "title" && st.in_title then { st with in_title := false } else st
  | HtmlEvent.text d =>
      if st.in_title then { st with title := st.title ++ d } else st

/-- `parser.feed(html); parser.title`: text of the first title element. -/
def findTitle (evs : List HtmlEvent) : String :=
  (evs.foldl TitleFinder.handle ⟨false, ""⟩).title

/-- Python `str.replace(pat, rep)`: replace every non-overlapping
occurrence, scanning left to right.  Fuelled; `pyReplace` supplies
sufficient fuel.  (The callers of the model always pass a nonempty
pattern — `title_tag` output — so the empty-pattern behaviour of Python's
`replace` is irrelevant and fuel exhaustion returns the rest verbatim.) -/
def replaceAllF : Nat → List Char → List Char → List Char → List Char
  | 0, s, _, _ => s
  | fuel + 1, s, pat, rep =>
      match s with
      | [] => []
      | c :: rest =>
          if pat.isPrefixOf s && !pat.isEmpty then
            rep ++ replaceAllF fuel (s.drop pat.length) pat rep
          else c :: replaceAllF fuel rest pat rep

/-- `html.replace(pat, rep)` on `String`. -/
def pyReplace (s pat rep : String) : String :=
  String.mk (replaceAllF s.data.length s.data pat.data rep.data)

/-- Line 271: replace the title tag, verbatim, by the lowercased title
suffixed with the category marker — every occurrence, as `str.replace`
does. -/
def postTitle (level : String) (html : String) : String :=
  let t := findTitle (tokenize html.data)
  pyReplace html (title_tag t) (title_tag (pyLower t ++ " | man" ++ level))

/-!  ### HTML post-processing: cross-reference links

`MAN_LINK = re.compile(r"<b>(\w+)</b>\((\d+p?)\)")` and
`MAN_LINK.sub(link_replacer(cross_references), html_data)`.  As with the
alias regexes, every greedy repetition is followed by a rejected
character, so `takeWhile` scans are faithful; `re.sub` replaces the
leftmost match and resumes after it. -/

/-- Try the `MAN_LINK` pattern at the current position.  Returns
`(name, level, rest-after-match)`. -/
def tryManLink (s : List Char) : Option (List Char × List Char × List Char) :=
  match s with
  | '<' :: 'b' :: '>' :: rest =>
      if rest.takeWhile isWordChar = [] then none
      else
        match rest.dropWhile isWordChar with
        | '<' :: '/' :: 'b' :: '>' :: '(' :: r2 =>
            if r2.takeWhile Char.isDigit = [] then none
            else
              match r2.dropWhile Char.isDigit with
              | 'p' :: ')' :: tail =>
                  some (rest.takeWhile isWordChar, r2.takeWhile Char.isDigit ++ ['p'], tail)
              | ')' :: tail =>
                  some (rest.takeWhile isWordChar, r2.takeWhile Char.isDigit, tail)
              | _ => none
        | _ => none
  | _ => none

/-- `match.group(0)` of a `MAN_LINK` match with the given groups. -/
def manLinkMatchText (name lvl : List Char) : List Char :=
  "<b>".data ++ name ++ "</b>(".data ++ lvl ++ ")".data

/-- The opening anchor built by `link_replacer` (line 202). -/
def linkFor (lvl name : List Char) : List Char :=
  "<a href=\"../html.".data ++ lvl ++ "/".data ++ name ++ ".html\">".data

/-- `MAN_LINK.sub(link_replacer(refs), s)` together with the `(level,
name)` pairs `link_replacer` appends, in match order.  Fuelled;
`manLinkSub` supplies sufficient fuel. -/
def manLinkSubF : Nat → List Char → List Char × List (String × String)
  | 0, s => (s, [])
  | fuel + 1, s =>
      match tryManLink s with
      | some (nm, lvl, tail) =>
          (linkFor lvl nm ++ manLinkMatchText nm lvl ++ "</a>".data
             ++ (manLinkSubF fuel tail).1,
           (String.mk lvl, String.mk nm) :: (manLinkSubF fuel tail).2)
      | none =>
          match s with
          | [] => ([], [])
          | c :: rest => (c :: (manLinkSubF fuel rest).1, (manLinkSubF fuel rest).2)

/-- Cross-reference rewrite of a whole document. -/
def manLinkSub (s : List Char) : List Char × List (String × String) :=
  manLinkSubF s.length s

/-!  ### The `do_level` pipeline -/

/-- `Keyword` (lines 185-194). -/
structure Keyword where
  keyword : String
  target : String
  is_alias : Bool
deriving DecidableEq, Repr

/-- A regular file of the category's output directory. -/
structure OutFile where
  name : String
  content : String
  mtime : Mtime
deriving DecidableEq, Repr

/-- Result of one `subprocess.run` of the external formatter: captured
stdout and stderr, exit status, and the image files it drops into the
`images` directory (named `<prefix><index>.<ext>` from the `-I<name>-`
option). -/
structure ConvResult where
  stdout : String
  stderr : String
  returncode : Int
  images : List String
deriving DecidableEq, Repr

/-- Environment of one `do_level` call: the category identifier, the
options that reach it, the injected listings of the alias target
directories, the converter oracle (`groff` as a deterministic black box:
page name and input text to result), and the original working directory
with the names that resolve to regular files there (`os.path.isfile`
against a relative name after the `chdir` back). -/
structure Env where
  level : String
  force : Bool
  cachePath : String
  manDirs : List (Nat × List String)
  conv : String → String → ConvResult
  origCwd : String
  origCwdFiles : List String

/-- The category's output directory, `cache_path.join("html.%s" % level)`. -/
def Env.outDir (env : Env) : String := env.cachePath ++ "/html." ++ env.level

/-- `abs(m - s) < 1.0` on rational mtimes, computed on numerators and
denominators (kernel-evaluable; `mtimeClose_iff` relates it to the
absolute difference). -/
def mtimeClose (m s : ℚ) : Bool :=
  decide ((m.num * s.den - s.num * m.den).natAbs < m.den * s.den)

theorem mtimeClose_iff (m s : ℚ) : mtimeClose m s = true ↔ |m - s| < 1 := by
  have hm : (0 : ℚ) < (m.den : ℚ) := by exact_mod_cast m.den_pos
  have hs : (0 : ℚ) < (s.den : ℚ) := by exact_mod_cast s.den_pos
  have h1 : (m.num : ℚ) = m * (m.den : ℚ) :=
    (div_eq_iff (ne_of_gt hm)).mp (Rat.num_div_den m)
  have h2 : (s.num : ℚ) = s * (s.den : ℚ) :=
    (div_eq_iff (ne_of_gt hs)).mp (Rat.num_div_den s)
  have key : m - s =
      ((m.num * s.den - s.num * m.den : ℤ) : ℚ) / ((m.den : ℚ) * (s.den : ℚ)) := by
    rw [eq_div_iff (by positivity)]
    push_cast
    rw [h1, h2]; ring
  rw [key, abs_div, abs_of_pos (mul_pos hm hs), div_lt_one (mul_pos hm hs)]
  unfold mtimeClose
  rw [decide_eq_true_eq, ← Int.cast_abs]
  rw [show ((m.den : ℚ) * (s.den : ℚ)) = (((m.den * s.den : ℕ) : ℤ) : ℚ) by push_cast; ring]
  rw [Int.cast_lt, Int.abs_eq_natAbs]
  exact_mod_cast Iff.rfl

/-- The staleness gate of line 245:
`not force and os.path.exists(out_file) and abs(getmtime(out_file) - source_mtime) < 1.0`.
`outMtime` is `none` when the expected output file does not exist. -/
def stalenessSkip (force : Bool) (outMtime : Option Mtime) (srcMtime : Mtime) : Bool :=
  match outMtime with
  | some m => !force && mtimeClose m srcMtime
  | none => false

/-- `open(out_file, "w")` followed by `os.utime(out_file, (m, m))`:
overwrite the file of that name or create it. -/
def writeFile (fs : List OutFile) (n c : String) (m : Mtime) : List OutFile :=
  if fs.any (fun f => f.name = n) then
    fs.map (fun f => if f.name = n then ⟨n, c, m⟩ else f)
  else fs ++ [⟨n, c, m⟩]

/-- The converter (re)writes its image files into the images directory. -/
def addImages (imgs : List String) (new : List String) : List String :=
  new.foldl (fun acc i => if i ∈ acc then acc else acc ++ [i]) imgs

/-- `IMAGE_NAME_RE.match(file).group("keyword")`:
`re.match(r"(?P<keyword>.+?)-\d+\.\w+", file)` — a prefix match with a
lazy stem.  The engine tries stem lengths 1, 2, … and for each requires
`-`, one or more digits, `.`, and at least one word character; the stem
cannot contain a newline (`.`). -/
def imageTailOk (r : List Char) : Bool :=
  match r with
  | '-' :: r2 =>
      !(r2.takeWhile Char.isDigit).isEmpty &&
        (match r2.dropWhile Char.isDigit with
         | '.' :: w :: _ => isWordChar w
         | _ => false)
  | _ => false

/-- Lazy-stem search of `IMAGE_NAME_RE`; `acc` is the reversed stem so far. -/
def imageMatchGo (acc : List Char) : List Char → Option (List Char)
  | [] => none
  | c :: cs =>
      if c = '\n' then none
      else if imageTailOk cs then some (c :: acc).reverse
      else imageMatchGo (c :: acc) cs

/-- `IMAGE_NAME_RE.match`: the captured stem, or `none`. -/
def imageMatch (s : List Char) : Option (List Char) := imageMatchGo [] s

/-- Lines 285-290, the rendered-page garbage collection as written:
a file of the output directory is removed iff `os.path.isfile(file)` —
which, after the `chdir` back, resolves against the *original* working
directory — and its name is not among the expected output basenames. -/
def gcHtml (origCwdFiles : List String) (levelFiles : List String)
    (fs : List OutFile) : List OutFile :=
  fs.filter (fun f => !(origCwdFiles.contains f.name && !levelFiles.contains f.name))

/-- Lines 292-301, the images garbage collection: keep a file iff
`IMAGE_NAME_RE` matches it and the captured stem is a live non-alias
keyword. -/
def gcImages (kwSet : List String) (files : List String) : List String :=
  files.filter (fun f =>
    match imageMatch f.data with
    | some stem => kwSet.contains (String.mk stem)
    | none => false)

/-- Mutable state of the `for f in os.listdir(in_dir)` loop. -/
structure LoopSt where
  keywords : List Keyword
  crossRefs : List (String × String)
  hasErrors : Bool
  outFiles : List OutFile
  images : List String
  convCount : Nat
deriving Repr

/-- One iteration of the loop (lines 223-280).  `Except.error` is an
uncaught `FileNotFoundError` from `os.path.getmtime` on a file that
vanished after the directory listing. -/
def stepEntry (env : Env) (st : LoopSt) (e : SrcEntry) : Except String LoopSt :=
  if !e.presentAtMtime then
    Except.error ("FileNotFoundError: " ++ e.fname)
  else
    let source_mtime := e.mtime
    match srcFn env.manDirs e with
    | none => Except.ok st
    | some (SrcOut.alias name cand) =>
        let base_name := result_name cand env.level
        let target := env.cachePath ++ "/html." ++ env.level ++ "/" ++ base_name
        Except.ok { st with keywords := st.keywords ++ [⟨name, target, true⟩] }
    | some (SrcOut.text name man_data) =>
        let base_name := result_name name env.level
        let target := env.cachePath ++ "/html." ++ env.level ++ "/" ++ base_name
        let out_file := base_name
        let st := { st with keywords := st.keywords ++ [⟨name, target, false⟩] }
        if stalenessSkip env.force
            ((st.outFiles.find? (fun f => f.name = out_file)).map OutFile.mtime)
            source_mtime then
          Except.ok st
        else
          let res := env.conv name man_data
          let st := { st with
            convCount := st.convCount + 1,
            images := addImages st.images res.images }
          if res.returncode ≠ 0 then
            Except.ok { st with hasErrors := true }
          else
            let html := postTitle env.level res.stdout
            let lr := manLinkSub html.data
            Except.ok { st with
              crossRefs := st.crossRefs ++ lr.2,
              outFiles := writeFile st.outFiles out_file (String.mk lr.1) source_mtime }

/-- The whole listing loop; on an exception the state reached so far is
returned with the error. -/
def runEntries (env : Env) : LoopSt → List SrcEntry → Except (String × LoopSt) LoopSt
  | st, [] => Except.ok st
  | st, e :: es =>
      match stepEntry env st e with
      | Except.error m => Except.error (m, st)
      | Except.ok st' => runEntries env st' es

/-- Observable outcome of `do_level`: the `LevelResult` fields, the final
output and images directories, the number of converter invocations, and
the process working directory when control leaves the function (`err`
is `some msg` when an uncaught exception propagates out). -/
structure LevelOutcome where
  err : Option String
  keywords : List Keyword
  crossRefs : List (String × String)
  hasErrors : Bool
  outFiles : List OutFile
  images : List String
  convCount : Nat
  finalCwd : String
deriving Repr

/-- `do_level(level, options)` (lines 206-303) over an initial output
directory `fs0` and images directory `imgs0`.  The working directory is
changed to the output directory before the loop and changed back on the
straight-line path only (line 283 is not in a `finally`). -/
def doLevel (env : Env) (entries : List SrcEntry)
    (fs0 : List OutFile) (imgs0 : List String) : LevelOutcome :=
  let init : LoopSt := ⟨[], [], false, fs0, imgs0, 0⟩
  match runEntries env init entries with
  | Except.error (m, st) =>
      { err := some m, keywords := st.keywords, crossRefs := st.crossRefs,
        hasErrors := st.hasErrors, outFiles := st.outFiles, images := st.images,
        convCount := st.convCount, finalCwd := env.outDir }
  | Except.ok st =>
      let level_files :=
        (st.keywords.filter (fun kw => !kw.is_alias)).map (fun kw => basename kw.target)
      let outFiles1 := gcHtml env.origCwdFiles level_files st.outFiles
      let kwSet := (st.keywords.filter (fun kw => !kw.is_alias)).map Keyword.keyword
      let images1 := gcImages kwSet st.images
      { err := none, keywords := st.keywords, crossRefs := st.crossRefs,
        hasErrors := st.hasErrors, outFiles := outFiles1, images := images1,
        convCount := st.convCount, finalCwd := env.origCwd }

/-!  ### The catalog (`do_levels`, lines 318-331) -/

/-- One `<keyword …/>` line of the catalog. -/
def keywordLine (kw : Keyword) : String :=
  "        <keyword name=\"" ++ kw.keyword ++ "\" ref=\"" ++ kw.target ++ "\" />\n"

/-- The catalog document written by `do_levels`: header with the
namespace, one filter section per category with all its keywords and the
two file globs, and the closing tag. -/
def catalogText (ns : String) (cats : List (String × List Keyword)) : String :=
  "<?xml version=\"1.0\" encoding=\"UTF-8\"?>\n<QtHelpProject version=\"1.0\">\n"
    ++ "<namespace>" ++ ns ++ "</namespace>\n"
    ++ "<virtualFolder>man-pages</virtualFolder>\n"
    ++ "<customFilter name=\"Linux Man 1.0\">\n    <filterAttribute>man</filterAttribute>\n</customFilter>\n"
    ++ String.join (cats.map (fun c =>
        "<filterSection>\n    <filterAttribute>man</filterAttribute>\n    <filterAttribute>man"
          ++ c.1 ++ "</filterAttribute>\n    <keywords>\n"
          ++ String.join (c.2.map keywordLine)
          ++ "    </keywords>\n    <files>\n"
          ++ "        <file>html." ++ c.1 ++ "/*.html</file>\n"
          ++ "        <file>html." ++ c.1 ++ "/images/*</file>\n"
          ++ "    </files>\n</filterSection>\n"))
    ++ "</QtHelpProject>\n"

/-!  ### Fixtures for the concrete runs -/

/-- Converter oracle that always succeeds with a fixed small page. -/
def convTitleT : String → String → ConvResult :=
  fun _ _ => ⟨"<title>T</title>", "", 0, []⟩

/-- Converter oracle that always exits nonzero. -/
def convFail : String → String → ConvResult :=
  fun _ _ => ⟨"x", "boom", 1, []⟩

/-- A plain category-2 environment with a configurable converter,
alias-directory listing and original-cwd listing. -/
def mkEnv (conv : String → String → ConvResult)
    (manDirs : List (Nat × List String)) (origCwdFiles : List String) : Env :=
  ⟨"2", false, "/c", manDirs, conv, "/home/u", origCwdFiles⟩

end Man2Qhelp

namespace Man2Qhelp

/-- **C2.**  The staleness gate of `do_level` line 245: with the force
switch set it never skips; otherwise it skips exactly when the expected
output file exists and `|output mtime - source mtime| < 1` second, and
regenerates in every other case; in particular an output at the source
mtime ±½ s is skipped and one at ±1½ s is regenerated. -/
theorem claim_C2 :
    (∀ (m : Option Mtime) (s : Mtime), stalenessSkip true m s = false)
    ∧ (∀ (m s : Mtime), |m - s| < 1 → stalenessSkip false (some m) s = true)
    ∧ (∀ (m s : Mtime), 1 ≤ |m - s| → stalenessSkip false (some m) s = false)
    ∧ (∀ s : Mtime, stalenessSkip false none s = false)
    ∧ (∀ t : Mtime, stalenessSkip false (some (t + 1/2)) t = true)
    ∧ (∀ t : Mtime, stalenessSkip false (some (t - 1/2)) t = true)
    ∧ (∀ t : Mtime, stalenessSkip false (some (t + 3/2)) t = false)
    ∧ (∀ t : Mtime, stalenessSkip false (some (t - 3/2)) t = false) := by
  refine ⟨fun m s => ?_, fun m s h => ?_, fun m s h => ?_, fun s => rfl,
    fun t => ?_, fun t => ?_, fun t => ?_, fun t => ?_⟩
  · cases m <;> simp [stalenessSkip]
  · simp only [stalenessSkip, Bool.not_false, Bool.true_and]
    exact (mtimeClose_iff m s).mpr h
  · simp only [stalenessSkip, Bool.not_false, Bool.true_and]
    rw [← Bool.not_eq_true]
    intro hc
    exact absurd ((mtimeClose_iff m s).mp hc) (not_lt.mpr h)
  · simp only [stalenessSkip, Bool.not_false, Bool.true_and]
    refine (mtimeClose_iff _ _).mpr ?_
    have h2 : t + 1/2 - t = (1/2 : ℚ) := by ring
    rw [h2, abs_of_nonneg] <;> norm_num
  · simp only [stalenessSkip, Bool.not_false, Bool.true_and]
    refine (mtimeClose_iff _ _).mpr ?_
    have h2 : t - 1/2 - t = (-(1/2) : ℚ) := by ring
    rw [h2, abs_neg, abs_of_nonneg] <;> norm_num
  · simp only [stalenessSkip, Bool.not_false, Bool.true_and]
    rw [← Bool.not_eq_true]
    intro hc
    have := (mtimeClose_iff _ _).mp hc
    have h2 : t + 3/2 - t = (3/2 : ℚ) := by ring
    rw [h2, abs_of_nonneg (by norm_num)] at this
    norm_num at this
  · simp only [stalenessSkip, Bool.not_false, Bool.true_and]
    rw [← Bool.not_eq_true]
    intro hc
    have := (mtimeClose_iff _ _).mp hc
    have h2 : t - 3/2 - t = (-(3/2) : ℚ) := by ring
    rw [h2, abs_neg, abs_of_nonneg (by norm_num)] at this
    norm_num at this

/-- Witness for C2 at concrete mtimes. -/
theorem claim_C2_witness :
    (|(5 : ℚ) - 5| < 1 ∧ stalenessSkip false (some 5) 5 = true)
    ∧ ((1 : ℚ) ≤ |(7 : ℚ) - 5| ∧ stalenessSkip false (some 7) 5 = false) :=
  ⟨⟨by norm_num, claim_C2.2.1 5 5 (by norm_num)⟩,
   ⟨by norm_num, claim_C2.2.2.1 7 5 (by norm_num)⟩⟩

/-!  ### Generic scanning lemmas -/

theorem takeWhile_append_all {α : Type} (p : α → Bool) (xs : List α) (y : α) (ys : List α)
    (h1 : ∀ x ∈ xs, p x = true) (h2 : p y = false) :
    (xs ++ y :: ys).takeWhile p = xs := by
  induction xs with
  | nil => simp [List.takeWhile_cons, h2]
  | cons a as ih =>
      have ha : p a = true := h1 a (List.mem_cons_self a as)
      simp only [List.cons_append, List.takeWhile_cons, ha, if_true]
      rw [ih (fun x hx => h1 x (List.mem_cons_of_mem a hx))]

theorem dropWhile_append_all {α : Type} (p : α → Bool) (xs : List α) (y : α) (ys : List α)
    (h1 : ∀ x ∈ xs, p x = true) (h2 : p y = false) :
    (xs ++ y :: ys).dropWhile p = y :: ys := by
  induction xs with
  | nil => simp [List.dropWhile_cons, h2]
  | cons a as ih =>
      have ha : p a = true := h1 a (List.mem_cons_self a as)
      simp only [List.cons_append, List.dropWhile_cons, ha, if_true]
      exact ih (fun x hx => h1 x (List.mem_cons_of_mem a hx))

/-!  ### The image-name pattern -/

/-- What `IMAGE_NAME_RE` recognizes, stated as a decomposition: a prefix
of the name of the shape `<stem>-<digits>.<word char>…` with a nonempty
newline-free stem and nonempty digit block. -/
def matchesImagePattern (s : List Char) : Prop :=
  ∃ stem ds c rest, s = stem ++ '-' :: (ds ++ '.' :: c :: rest)
    ∧ stem ≠ [] ∧ (∀ x ∈ stem, ¬ x = '\n')
    ∧ ds ≠ [] ∧ (∀ x ∈ ds, x.isDigit = true) ∧ isWordChar c = true

theorem imageTailOk_iff (r : List Char) :
    imageTailOk r = true ↔
      ∃ ds c rest, r = '-' :: (ds ++ '.' :: c :: rest)
        ∧ ds ≠ [] ∧ (∀ x ∈ ds, x.isDigit = true) ∧ isWordChar c = true := by
  constructor
  · intro h
    unfold imageTailOk at h
    split at h
    next r2 =>
      rw [Bool.and_eq_true] at h
      obtain ⟨hds, hrest⟩ := h
      split at hrest
      next w tail hdw =>
        refine ⟨r2.takeWhile Char.isDigit, w, tail, ?_, ?_, ?_, hrest⟩
        · rw [← hdw, List.takeWhile_append_dropWhile]
        · intro hemp
          rw [hemp] at hds
          simp at hds
        · exact fun x hx => List.mem_takeWhile_imp hx
      next => exact absurd hrest (by simp)
    next => exact absurd h (by simp)
  · rintro ⟨ds, c, rest, hr, hds, hdig, hw⟩
    rw [hr]
    have h1 := takeWhile_append_all Char.isDigit ds '.' (c :: rest) hdig (by decide)
    have h2 := dropWhile_append_all Char.isDigit ds '.' (c :: rest) hdig (by decide)
    simp only [imageTailOk, h1, h2]
    simp [hds, hw]

theorem imageMatchGo_sound :
    ∀ (r acc st : List Char), imageMatchGo acc r = some st →
      ∃ stem ds c rest, r = stem ++ '-' :: (ds ++ '.' :: c :: rest)
        ∧ stem ≠ [] ∧ (∀ x ∈ stem, ¬ x = '\n')
        ∧ ds ≠ [] ∧ (∀ x ∈ ds, x.isDigit = true) ∧ isWordChar c = true
        ∧ st = acc.reverse ++ stem := by
  intro r
  induction r with
  | nil => intro acc st h; exact absurd h (by simp [imageMatchGo])
  | cons c cs ih =>
      intro acc st h
      simp only [imageMatchGo] at h
      split_ifs at h with h1 h2
      · obtain ⟨ds, w, rest, hcs, hds, hdig, hw⟩ := (imageTailOk_iff cs).mp h2
        refine ⟨[c], ds, w, rest, ?_, by simp, ?_, hds, hdig, hw, ?_⟩
        · rw [hcs]; rfl
        · intro x hx
          rw [List.mem_singleton] at hx
          rw [hx]; exact h1
        · rw [← Option.some_inj.mp h, List.reverse_cons]
      · obtain ⟨stem, ds, w, rest, hcs, hne, hnl, hds, hdig, hw, hst⟩ := ih (c :: acc) st h
        refine ⟨c :: stem, ds, w, rest, ?_, by simp, ?_, hds, hdig, hw, ?_⟩
        · rw [List.cons_append, hcs]
        · intro x hx
          rcases List.mem_cons.mp hx with hx | hx
          · rw [hx]; exact h1
          · exact hnl x hx
        · rw [hst, List.reverse_cons, List.append_assoc]; rfl

theorem imageMatchGo_complete :
    ∀ (stem : List Char) (acc tail : List Char), stem ≠ [] → (∀ x ∈ stem, ¬ x = '\n') →
      imageTailOk tail = true → ∃ st, imageMatchGo acc (stem ++ tail) = some st := by
  intro stem
  induction stem with
  | nil => intro acc tail h _ _; exact absurd rfl h
  | cons c cs ih =>
      intro acc tail _ hnl htail
      simp only [List.cons_append, imageMatchGo, List.append_eq]
      have hc : ¬ c = '\n' := hnl c (List.mem_cons_self c cs)
      rw [if_neg hc]
      by_cases h2 : imageTailOk (cs ++ tail) = true
      · rw [if_pos h2]; exact ⟨_, rfl⟩
      · rw [if_neg h2]
        cases cs with
        | nil => exact absurd htail h2
        | cons d ds =>
            exact ih (c :: acc) tail (by simp)
              (fun x hx => hnl x (List.mem_cons_of_mem c hx)) htail

/-- `IMAGE_NAME_RE.match file` succeeds exactly on names of the image
pattern shape. -/
theorem matchesImagePattern_iff (s : List Char) :
    matchesImagePattern s ↔ ∃ st, imageMatch s = some st := by
  constructor
  · rintro ⟨stem, ds, c, rest, hs, hne, hnl, hds, hdig, hw⟩
    rw [hs]
    exact imageMatchGo_complete stem [] ('-' :: (ds ++ '.' :: c :: rest)) hne hnl
      ((imageTailOk_iff _).mpr ⟨ds, c, rest, rfl, hds, hdig, hw⟩)
  · rintro ⟨st, h⟩
    obtain ⟨stem, ds, c, rest, hs, hne, hnl, hds, hdig, hw, -⟩ :=
      imageMatchGo_sound s [] st h
    exact ⟨stem, ds, c, rest, hs, hne, hnl, hds, hdig, hw⟩

/-- **C10.**  The images garbage collection (lines 292-301): a file whose
name is not of the image pattern shape is deleted no matter what the
keyword set is; a file the pattern matches is retained exactly when the
captured stem is among the run's non-alias keywords. -/
theorem claim_C10 (kws files : List String) (f : String) (hf : f ∈ files) :
    (¬ matchesImagePattern f.data → f ∉ gcImages kws files)
    ∧ (∀ stem, imageMatch f.data = some stem →
        matchesImagePattern f.data ∧ (f ∈ gcImages kws files ↔ String.mk stem ∈ kws)) := by
  constructor
  · intro hnp hmem
    have hp := (List.mem_filter.mp hmem).2
    cases hm : imageMatch f.data with
    | some st => exact hnp ((matchesImagePattern_iff f.data).mpr ⟨st, hm⟩)
    | none => rw [hm] at hp; simp at hp
  · intro stem hm
    refine ⟨(matchesImagePattern_iff f.data).mpr ⟨stem, hm⟩, ?_⟩
    unfold gcImages
    rw [List.mem_filter]
    constructor
    · rintro ⟨-, hp⟩
      rw [hm] at hp
      simpa using hp
    · intro hk
      refine ⟨hf, ?_⟩
      rw [hm]
      simpa using hk

/-- Witness for C10: `doc-2.svg` matches with stem `doc`; it is retained
iff `doc` is in the keyword set (here it is not, so it is collected),
while `open-1.png` survives. -/
theorem claim_C10_witness :
    (("doc-2.svg" : String) ∈ gcImages ["open"] ["open-1.png", "doc-2.svg", "readme"]
        ↔ ("doc" : String) ∈ (["open"] : List String))
    ∧ matchesImagePattern "doc-2.svg".data := by
  have h := claim_C10 ["open"] ["open-1.png", "doc-2.svg", "readme"] "doc-2.svg" (by decide)
  have h2 := h.2 "doc".data (by decide)
  exact ⟨by simpa using h2.2, h2.1⟩

/-!  ### Loop decomposition lemmas -/

theorem runEntries_append (env : Env) (l1 l2 : List SrcEntry) :
    ∀ st, runEntries env st (l1 ++ l2) =
      match runEntries env st l1 with
      | Except.error p => Except.error p
      | Except.ok st' => runEntries env st' l2 := by
  induction l1 with
  | nil => intro st; rfl
  | cons e es ih =>
      intro st
      simp only [List.cons_append, runEntries]
      cases stepEntry env st e with
      | error m => rfl
      | ok st' => exact ih st'

/-- A file present at the `getmtime` probe but gone at `src`'s existence
check is skipped with the loop state unchanged. -/
theorem stepEntry_vanished_at_read (env : Env) (st : LoopSt) (e : SrcEntry)
    (hm : e.presentAtMtime = true) (hr : e.presentAtRead = false) :
    stepEntry env st e = Except.ok st := by
  simp [stepEntry, srcFn, hm, hr]

/-- **C8 (amended).**  A source file that vanishes after the mtime query
but before `src`'s existence check is logged and skipped: the run is
exactly the run without that file, whatever comes before or after it.
(A file already gone at the `os.path.getmtime` call instead raises an
uncaught `FileNotFoundError`; see the counterexample.) -/
theorem claim_C8 (env : Env) (e : SrcEntry) (pre post : List SrcEntry)
    (fs0 : List OutFile) (imgs0 : List String)
    (hm : e.presentAtMtime = true) (hr : e.presentAtRead = false) :
    doLevel env (pre ++ e :: post) fs0 imgs0 = doLevel env (pre ++ post) fs0 imgs0 := by
  have hrun : ∀ st, runEntries env st (pre ++ e :: post) = runEntries env st (pre ++ post) := by
    intro st
    rw [runEntries_append, runEntries_append]
    cases runEntries env st pre with
    | error p => rfl
    | ok st' =>
        show runEntries env st' (e :: post) = _
        show (match stepEntry env st' e with
              | Except.error m => Except.error (m, st')
              | Except.ok st'' => runEntries env st'' post) = _
        rw [stepEntry_vanished_at_read env st' e hm hr]
  simp only [doLevel, hrun]

/-- Witness for C8: a concrete three-entry listing where the middle file
vanishes before the read; the outcome equals the two-entry run's. -/
theorem claim_C8_witness :
    doLevel (mkEnv convTitleT [] [])
        [⟨"a.2", 0, "data", true, true⟩, ⟨"gone.2", 0, "x", true, false⟩,
         ⟨"b.2", 1, "data2", true, true⟩] [] []
      = doLevel (mkEnv convTitleT [] [])
        [⟨"a.2", 0, "data", true, true⟩, ⟨"b.2", 1, "data2", true, true⟩] [] [] :=
  claim_C8 (mkEnv convTitleT [] []) ⟨"gone.2", 0, "x", true, false⟩
    [⟨"a.2", 0, "data", true, true⟩] [⟨"b.2", 1, "data2", true, true⟩] [] [] rfl rfl

/-- **C8 (counterexample).**  The claim says a file vanishing between the
listing and the read is logged, skipped, and the run continues.  But
`os.path.getmtime` runs before `src`'s existence check: a file already
gone at that call aborts the category run with an uncaught error, and the
following entry is never processed (it produces no keyword), although on
its own it would. -/
theorem claim_C8_counterexample :
    (doLevel (mkEnv convTitleT [] [])
        [⟨"gone.2", 0, "x", false, true⟩, ⟨"b.2", 1, "data2", true, true⟩] [] []).err ≠ none
    ∧ (doLevel (mkEnv convTitleT [] [])
        [⟨"gone.2", 0, "x", false, true⟩, ⟨"b.2", 1, "data2", true, true⟩] [] []).keywords = []
    ∧ (doLevel (mkEnv convTitleT [] [])
        [⟨"b.2", 1, "data2", true, true⟩] [] []).keywords ≠ [] := by
  refine ⟨?_, ?_, ?_⟩ <;> decide

/-- **C9 (amended).**  The working directory is redirected to the
category's output directory and restored on every *completed* run of the
category — including runs whose pages are all early-skipped — but an
uncaught exception propagates with the working directory still set to the
output directory (line 283 is not in a `finally`). -/
theorem claim_C9 (env : Env) (entries : List SrcEntry)
    (fs0 : List OutFile) (imgs0 : List String) :
    (doLevel env entries fs0 imgs0).finalCwd =
      match (doLevel env entries fs0 imgs0).err with
      | none => env.origCwd
      | some _ => env.outDir := by
  simp only [doLevel]
  cases hr : runEntries env ⟨[], [], false, fs0, imgs0, 0⟩ entries with
  | error p => obtain ⟨m, st⟩ := p; simp [hr]
  | ok st => simp [hr]

/-- **C9 (counterexample).**  A run aborted by a vanished source exits
with the working directory still pointing at the category output
directory, not restored to the original one: no scoped release exists. -/
theorem claim_C9_counterexample :
    (doLevel (mkEnv convTitleT [] []) [⟨"gone.2", 0, "x", false, true⟩] [] []).finalCwd
        = "/c/html.2"
    ∧ (mkEnv convTitleT [] []).origCwd = "/home/u"
    ∧ (doLevel (mkEnv convTitleT [] []) [⟨"gone.2", 0, "x", false, true⟩] [] []).finalCwd
        ≠ (mkEnv convTitleT [] []).origCwd := by
  refine ⟨?_, ?_, ?_⟩ <;> decide

/-!  ### `str.replace` lemmas (for the title rewrite) -/

theorem replaceAllF_fuel : ∀ (n : Nat) (s : List Char) (m : Nat) (pat rep : List Char),
    s.length ≤ n → s.length ≤ m → replaceAllF n s pat rep = replaceAllF m s pat rep := by
  intro n
  induction n with
  | zero =>
      intro s m pat rep h1 _
      have hs : s = [] := List.eq_nil_of_length_eq_zero (Nat.le_zero.mp h1)
      subst hs
      cases m with
      | zero => rfl
      | succ m' => rfl
  | succ n' ih =>
      intro s m pat rep h1 h2
      cases s with
      | nil =>
          cases m with
          | zero => rfl
          | succ m' => rfl
      | cons c rest =>
          cases m with
          | zero => exact absurd h2 (by simp)
          | succ m' =>
              simp only [replaceAllF]
              by_cases hp : (pat.isPrefixOf (c :: rest) && !pat.isEmpty) = true
              · rw [if_pos hp, if_pos hp]
                congr 1
                have hpne : 1 ≤ pat.length := by
                  cases pat with
                  | nil => simp at hp
                  | cons p pt => simp
                apply ih <;> rw [List.length_drop] <;> simp at h1 h2 ⊢ <;> omega
              · rw [if_neg hp, if_neg hp]
                congr 1
                apply ih
                · simp at h1 ⊢; omega
                · simp at h2 ⊢; omega

theorem replaceAllF_clean : ∀ (n : Nat) (s pat rep : List Char),
    s.length ≤ n →
    (∀ i, i ≤ s.length → pat.isPrefixOf (s.drop i) = false) →
    replaceAllF n s pat rep = s := by
  intro n
  induction n with
  | zero =>
      intro s pat rep h1 _
      have hs : s = [] := List.eq_nil_of_length_eq_zero (Nat.le_zero.mp h1)
      subst hs; rfl
  | succ n' ih =>
      intro s pat rep h1 h2
      cases s with
      | nil => rfl
      | cons c rest =>
          simp only [replaceAllF]
          have h0 : pat.isPrefixOf (c :: rest) = false := by
            have := h2 0 (by omega)
            simpa using this
          rw [if_neg (by simp [h0])]
          congr 1
          refine ih rest pat rep (by simp at h1 ⊢; omega) ?_
          intro i hi
          have := h2 (i + 1) (by simp; omega)
          simpa [List.drop_succ_cons] using this

theorem replaceAllF_main : ∀ (a : List Char) (n : Nat) (pat rep b : List Char),
    pat ≠ [] →
    (a ++ pat ++ b).length ≤ n →
    (∀ i, i < a.length → pat.isPrefixOf (List.drop i (a ++ pat ++ b)) = false) →
    replaceAllF n (a ++ pat ++ b) pat rep
      = a ++ rep ++ replaceAllF b.length b pat rep := by
  intro a
  induction a with
  | nil =>
      intro n pat rep b hpat hn _
      cases pat with
      | nil => exact absurd rfl hpat
      | cons p pt =>
          cases n with
          | zero => exact absurd hn (by simp)
          | succ n' =>
              simp only [List.nil_append, List.cons_append, replaceAllF]
              have hpre : (p :: pt).isPrefixOf ((p :: pt) ++ b) = true := by
                rw [List.isPrefixOf_iff_prefix]
                exact List.prefix_append (p :: pt) b
              rw [List.cons_append] at hpre
              rw [if_pos (by simp [hpre])]
              have hdrop : (p :: (pt ++ b)).drop (p :: pt).length = b := by
                rw [← List.cons_append, List.drop_left]
              rw [hdrop]
              congr 1
              apply replaceAllF_fuel
              · simp at hn ⊢; omega
              · exact le_rfl
  | cons x a' ih =>
      intro n pat rep b hpat hn hno
      cases n with
      | zero => simp at hn
      | succ n' =>
          have h0 : pat.isPrefixOf (x :: (a' ++ (pat ++ b))) = false := by
            have := hno 0 (by simp)
            simpa using this
          simp only [List.cons_append, List.append_assoc, replaceAllF]
          rw [if_neg (by simp [h0])]
          have hrec := ih n' pat rep b hpat (by simp at hn ⊢; omega) (fun i hi => by
            have := hno (i + 1) (by simp; omega)
            simpa [List.drop_succ_cons] using this)
          simp only [List.append_assoc] at hrec
          rw [hrec]

/-- The title-tag pattern is never the empty string. -/
theorem title_tag_data_ne (t : String) : (title_tag t).data ≠ [] := by
  unfold title_tag
  intro h
  have : ((("<title>" ++ t) ++ "</title>").data).length = 0 := by rw [h]; rfl
  rw [String.data_append, String.data_append] at this
  simp at this

/-- **C6 (amended).**  The title rewrite replaces the verbatim title-tag
string of the *first* title element (`findTitle` keeps the first) by the
lowercased text suffixed with the category marker — at every occurrence
of that string, as `str.replace` does.  When the string occurs exactly
once (no occurrence starts inside the prefix and none occurs in the
suffix), that is exactly one substitution and all other text is
untouched. -/
theorem claim_C6 (level html : String) (a b : List Char) (t : String)
    (ht : findTitle (tokenize html.data) = t)
    (hdecomp : html.data = a ++ (title_tag t).data ++ b)
    (ha : ∀ i, i < a.length →
      (title_tag t).data.isPrefixOf (List.drop i (a ++ (title_tag t).data ++ b)) = false)
    (hb : ∀ i, i ≤ b.length → (title_tag t).data.isPrefixOf (b.drop i) = false) :
    (postTitle level html).data
      = a ++ (title_tag (pyLower t ++ " | man" ++ level)).data ++ b := by
  unfold postTitle pyReplace
  rw [ht, hdecomp]
  show replaceAllF (a ++ (title_tag t).data ++ b).length (a ++ (title_tag t).data ++ b)
      (title_tag t).data (title_tag (pyLower t ++ " | man" ++ level)).data = _
  rw [replaceAllF_main a _ _ _ b (title_tag_data_ne t) le_rfl ha,
      replaceAllF_clean b.length b _ _ le_rfl hb]

/-- Witness for C6 on a concrete page with a single title element. -/
theorem claim_C6_witness :
    (postTitle "3" "<head><title>FOO</title></head>").data
      = "<head>".data ++ (title_tag (pyLower "FOO" ++ " | man" ++ "3")).data
          ++ "</head>".data :=
  claim_C6 "3" "<head><title>FOO</title></head>" "<head>".data "</head>".data "FOO"
    (by decide) (by decide) (by decide) (by decide)

/-- **C6 (counterexample).**  The claim says exactly one substitution is
performed and all other text is untouched.  `str.replace` replaces every
occurrence: on a document whose (first) title-tag string occurs twice,
both occurrences are rewritten — the text outside the first title element
is changed. -/
theorem claim_C6_counterexample :
    postTitle "2" "<title>A</title><title>A</title>"
        = "<title>a | man2</title><title>a | man2</title>"
    ∧ findTitle (tokenize "<title>A</title><title>A</title>".data) = "A"
    ∧ postTitle "2" "<title>A</title><title>A</title>"
        ≠ "<title>a | man2</title><title>A</title>" := by
  refine ⟨?_, ?_, ?_⟩ <;> decide

/-!  ### Cross-reference substitution lemmas -/

/-- A successful `MAN_LINK` match consumes at least one character. -/
theorem tryManLink_length (s nm lvl tail : List Char)
    (h : tryManLink s = some (nm, lvl, tail)) : tail.length < s.length := by
  unfold tryManLink at h
  split at h
  case _ rest =>
    split_ifs at h
    split at h
    case _ r2 heq =>
      have hr2 : r2.length + 5 ≤ rest.length := by
        have hle : (rest.dropWhile isWordChar).length ≤ rest.length :=
          List.Sublist.length_le (List.dropWhile_sublist isWordChar)
        rw [heq] at hle
        simpa using hle
      split_ifs at h
      split at h
      case _ tl heq2 =>
        have htl : tl.length + 2 ≤ r2.length := by
          have hle : (r2.dropWhile Char.isDigit).length ≤ r2.length :=
            List.Sublist.length_le (List.dropWhile_sublist Char.isDigit)
          rw [heq2] at hle
          simpa using hle
        have h3 : tl = tail := by
          rw [Option.some_inj] at h
          exact congrArg (fun p => p.2.2) h
        rw [← h3]
        simp only [List.length_cons]
        omega
      case _ tl heq2 =>
        have htl : tl.length + 1 ≤ r2.length := by
          have hle : (r2.dropWhile Char.isDigit).length ≤ r2.length :=
            List.Sublist.length_le (List.dropWhile_sublist Char.isDigit)
          rw [heq2] at hle
          simpa using hle
        have h3 : tl = tail := by
          rw [Option.some_inj] at h
          exact congrArg (fun p => p.2.2) h
        rw [← h3]
        simp only [List.length_cons]
        omega
      case _ => exact absurd h (by simp)
    case _ => exact absurd h (by simp)
  case _ => exact absurd h (by simp)

/-- Fuel does not matter as long as it covers the input length. -/
theorem manLinkSubF_fuel : ∀ (n : Nat) (s : List Char) (m : Nat),
    s.length ≤ n → s.length ≤ m → manLinkSubF n s = manLinkSubF m s := by
  intro n
  induction n with
  | zero =>
      intro s m h1 _
      have hs : s = [] := List.eq_nil_of_length_eq_zero (Nat.le_zero.mp h1)
      subst hs
      cases m with
      | zero => rfl
      | succ m' => rfl
  | succ n' ih =>
      intro s m h1 h2
      cases s with
      | nil =>
          cases m with
          | zero => rfl
          | succ m' => rfl
      | cons c rest =>
          cases m with
          | zero => exact absurd h2 (by simp)
          | succ m' =>
              cases htry : tryManLink (c :: rest) with
              | some v =>
                  obtain ⟨nm, lvl, tail⟩ := v
                  have hlt := tryManLink_length (c :: rest) nm lvl tail htry
                  simp only [manLinkSubF, htry]
                  rw [ih tail m' (by simp at hlt h1 ⊢; omega) (by simp at hlt h2 ⊢; omega)]
              | none =>
                  simp only [manLinkSubF, htry]
                  rw [ih rest m' (by simp at h1 ⊢; omega) (by simp at h2 ⊢; omega)]

/-- On a well-formed match text, `tryManLink` succeeds with exactly the
regex's groups and resumes right after the closing parenthesis. -/
theorem tryManLink_match (nm ds ps post : List Char)
    (hnm : nm ≠ []) (hw : ∀ c ∈ nm, isWordChar c = true)
    (hds : ds ≠ []) (hdig : ∀ c ∈ ds, c.isDigit = true)
    (hps : ps = [] ∨ ps = ['p']) :
    tryManLink (manLinkMatchText nm (ds ++ ps) ++ post) = some (nm, ds ++ ps, post) := by
  have hm : manLinkMatchText nm (ds ++ ps) ++ post
      = '<' :: 'b' :: '>'
          :: (nm ++ '<' :: '/' :: 'b' :: '>' :: '(' :: ((ds ++ ps) ++ ')' :: post)) := by
    unfold manLinkMatchText
    simp [List.append_assoc]
  rw [hm]
  rcases hps with rfl | rfl
  · have h1 := takeWhile_append_all isWordChar nm '<'
      ('/' :: 'b' :: '>' :: '(' :: ((ds ++ []) ++ ')' :: post)) hw (by decide)
    have h2 := dropWhile_append_all isWordChar nm '<'
      ('/' :: 'b' :: '>' :: '(' :: ((ds ++ []) ++ ')' :: post)) hw (by decide)
    have h3 := takeWhile_append_all Char.isDigit ds ')' post hdig (by decide)
    have h4 := dropWhile_append_all Char.isDigit ds ')' post hdig (by decide)
    simp only [List.append_nil] at *
    simp only [tryManLink, h1, h2, h3, h4, if_neg hnm, if_neg hds]
  · have h1 := takeWhile_append_all isWordChar nm '<'
      ('/' :: 'b' :: '>' :: '(' :: ((ds ++ ['p']) ++ ')' :: post)) hw (by decide)
    have h2 := dropWhile_append_all isWordChar nm '<'
      ('/' :: 'b' :: '>' :: '(' :: ((ds ++ ['p']) ++ ')' :: post)) hw (by decide)
    have h3 := takeWhile_append_all Char.isDigit ds 'p' (')' :: post) hdig (by decide)
    have h4 := dropWhile_append_all Char.isDigit ds 'p' (')' :: post) hdig (by decide)
    simp only [List.append_assoc, List.cons_append, List.nil_append] at *
    simp only [tryManLink, h1, h2, h3, h4, if_neg hnm, if_neg hds]

/-- **C7.**  The cross-reference rewrite, at the leftmost match: writing
the document as `pre ++ <b>name</b>(lvl) ++ post` where no match starts
inside `pre`, the substitution wraps exactly that span in the anchor
`<a href="../html.<lvl>/<name>.html">…</a>`, records `(lvl, name)` in
front of the references recorded for `post` (duplicates allowed —
whatever `post` yields is appended after it), and continues on `post`
unchanged otherwise. -/
theorem claim_C7 (pre nm ds ps post : List Char)
    (hnm : nm ≠ []) (hw : ∀ c ∈ nm, isWordChar c = true)
    (hds : ds ≠ []) (hdig : ∀ c ∈ ds, c.isDigit = true)
    (hps : ps = [] ∨ ps = ['p'])
    (hpre : ∀ i, i < pre.length →
      tryManLink (List.drop i (pre ++ manLinkMatchText nm (ds ++ ps) ++ post)) = none) :
    manLinkSub (pre ++ manLinkMatchText nm (ds ++ ps) ++ post)
      = (pre ++ linkFor (ds ++ ps) nm ++ manLinkMatchText nm (ds ++ ps) ++ "</a>".data
            ++ (manLinkSub post).1,
         (String.mk (ds ++ ps), String.mk nm) :: (manLinkSub post).2) := by
  unfold manLinkSub
  have hmain : ∀ (p : List Char) (n : Nat),
      (p ++ manLinkMatchText nm (ds ++ ps) ++ post).length ≤ n →
      (∀ i, i < p.length →
        tryManLink (List.drop i (p ++ manLinkMatchText nm (ds ++ ps) ++ post)) = none) →
      manLinkSubF n (p ++ manLinkMatchText nm (ds ++ ps) ++ post)
        = (p ++ linkFor (ds ++ ps) nm ++ manLinkMatchText nm (ds ++ ps) ++ "</a>".data
              ++ (manLinkSubF post.length post).1,
           (String.mk (ds ++ ps), String.mk nm) :: (manLinkSubF post.length post).2) := by
    intro p
    induction p with
    | nil =>
        intro n hn _
        have hmt : (manLinkMatchText nm (ds ++ ps)).length
            = nm.length + (ds ++ ps).length + 9 := by
          unfold manLinkMatchText
          simp
          omega
        cases n with
        | zero =>
            exfalso
            simp only [List.nil_append, List.length_append, hmt] at hn
            omega
        | succ n' =>
            rw [List.nil_append]
            have htry := tryManLink_match nm ds ps post hnm hw hds hdig hps
            simp only [manLinkSubF, htry, List.nil_append]
            have hfuel : manLinkSubF n' post = manLinkSubF post.length post := by
              apply manLinkSubF_fuel
              · simp only [List.length_append, hmt] at hn
                omega
              · exact le_rfl
            rw [hfuel]
    | cons x p' ih =>
        intro n hn hno
        cases n with
        | zero => simp at hn
        | succ n' =>
            have h0 : tryManLink (x :: (p' ++ (manLinkMatchText nm (ds ++ ps) ++ post)))
                = none := by
              have := hno 0 (by simp)
              simpa using this
            simp only [List.cons_append, List.append_assoc] at h0 ⊢
            simp only [manLinkSubF, h0]
            have hrec := ih n' (by simp at hn ⊢; omega) (fun i hi => by
              have := hno (i + 1) (by simp; omega)
              simpa [List.drop_succ_cons] using this)
            simp only [List.append_assoc] at hrec
            rw [hrec]
            simp
  exact hmain pre _ le_rfl hpre

/-- Witness for C7: the claim's own example, with the match occurring
twice so the recorded reference list keeps the duplicate. -/
theorem claim_C7_witness :
    manLinkSub "see <b>open</b>(2) and <b>open</b>(2).".data
      = (("see <a href=\"../html.2/open.html\"><b>open</b>(2)</a>"
            ++ " and <a href=\"../html.2/open.html\"><b>open</b>(2)</a>.").data,
         [("2", "open"), ("2", "open")]) := by
  have hinput : "see <b>open</b>(2) and <b>open</b>(2).".data
      = "see ".data ++ manLinkMatchText "open".data ("2".data ++ [])
          ++ " and <b>open</b>(2).".data := by decide
  have h := claim_C7 "see ".data "open".data "2".data [] " and <b>open</b>(2).".data
    (by decide) (by decide) (by decide) (by decide) (Or.inl rfl)
    (by rw [← hinput]; decide)
  rw [hinput, h]
  decide

/-!  ### Keyword registration -/

/-- The Keyword `do_level` registers for one listing entry, if any:
determined by the `src` result alone (lines 230-243), before the
staleness gate and the converter run. -/
def entryKeyword (env : Env) (e : SrcEntry) : Option Keyword :=
  match srcFn env.manDirs e with
  | none => none
  | some (SrcOut.alias name cand) =>
      some ⟨name, env.cachePath ++ "/html." ++ env.level ++ "/" ++ result_name cand env.level,
        true⟩
  | some (SrcOut.text name _) =>
      some ⟨name, env.cachePath ++ "/html." ++ env.level ++ "/" ++ result_name name env.level,
        false⟩

/-- A present entry never raises, and appends exactly its `entryKeyword`
(empty or singleton) to the keyword list, on every branch: skip, alias,
staleness skip, converter failure, success. -/
theorem stepEntry_keywords (env : Env) (st : LoopSt) (e : SrcEntry)
    (hm : e.presentAtMtime = true) :
    ∃ st', stepEntry env st e = Except.ok st' ∧
      st'.keywords = st.keywords ++ (entryKeyword env e).toList := by
  unfold stepEntry entryKeyword
  simp only [hm, Bool.not_true, Bool.false_eq_true, if_false]
  split
  · exact ⟨st, rfl, by simp⟩
  · exact ⟨_, rfl, by simp⟩
  · split
    · exact ⟨_, rfl, by simp⟩
    · split
      · exact ⟨_, rfl, by simp⟩
      · exact ⟨_, rfl, by simp⟩

/-- The loop over a fully present listing completes and its keyword list
is the concatenation, in listing order, of the per-entry keywords. -/
theorem runEntries_keywords (env : Env) :
    ∀ (entries : List SrcEntry) (st : LoopSt),
      (∀ e ∈ entries, e.presentAtMtime = true) →
      ∃ st', runEntries env st entries = Except.ok st' ∧
        st'.keywords = st.keywords ++ entries.filterMap (entryKeyword env) := by
  intro entries
  induction entries with
  | nil => intro st _; exact ⟨st, rfl, by simp⟩
  | cons e es ih =>
      intro st hp
      obtain ⟨st1, hstep, hkw⟩ :=
        stepEntry_keywords env st e (hp e (List.mem_cons_self e es))
      obtain ⟨st', hrun, hkw'⟩ := ih st1 (fun x hx => hp x (List.mem_cons_of_mem e hx))
      refine ⟨st', ?_, ?_⟩
      · simp only [runEntries, hstep]
        exact hrun
      · rw [hkw', hkw, List.filterMap_cons]
        cases entryKeyword env e <;> simp

/-- **C3 (amended).**  Exactly one Keyword is registered per source on
which `src` succeeds — decoded text or a resolved alias — including pages
skipped as unchanged by the staleness gate and pages whose conversion
subsequently *fails*; and none for a source `src` skips (missing file,
not-understood / unresolved / ambiguous alias).  Registration happens at
lines 236/243, before the gate and the converter. -/
theorem claim_C3 (env : Env) (entries : List SrcEntry)
    (fs0 : List OutFile) (imgs0 : List String)
    (hp : ∀ e ∈ entries, e.presentAtMtime = true) :
    (doLevel env entries fs0 imgs0).keywords = entries.filterMap (entryKeyword env) := by
  obtain ⟨st', hrun, hkw⟩ :=
    runEntries_keywords env entries ⟨[], [], false, fs0, imgs0, 0⟩ hp
  simp only [doLevel, hrun]
  simpa using hkw

/-- Witness for C3 at a concrete one-page listing. -/
theorem claim_C3_witness :
    (doLevel (mkEnv convFail [] []) [⟨"foo.2", 0, "hello", true, true⟩] [] []).keywords
      = List.filterMap (entryKeyword (mkEnv convFail [] []))
          [⟨"foo.2", 0, "hello", true, true⟩] :=
  claim_C3 (mkEnv convFail [] []) [⟨"foo.2", 0, "hello", true, true⟩] [] [] (by decide)

/-- **C3 (counterexample).**  The claim says no Keyword is registered for
a page whose conversion fails.  On a one-page run whose converter exits
nonzero, the error flag is set, no output is written — yet the page's
Keyword *is* registered (the keyword list has one entry). -/
theorem claim_C3_counterexample :
    (doLevel (mkEnv convFail [] []) [⟨"foo.2", 0, "hello", true, true⟩] [] []).hasErrors
        = true
    ∧ (doLevel (mkEnv convFail [] []) [⟨"foo.2", 0, "hello", true, true⟩] [] []).convCount = 1
    ∧ (doLevel (mkEnv convFail [] []) [⟨"foo.2", 0, "hello", true, true⟩] [] []).outFiles = []
    ∧ (doLevel (mkEnv convFail [] []) [⟨"foo.2", 0, "hello", true, true⟩] [] []).keywords
        = [⟨"foo", "/c/html.2/foo.html", false⟩] := by
  refine ⟨?_, ?_, ?_, ?_⟩ <;> decide

/-!  ### Helpers for the idempotence analysis -/

theorem takeWhile_append_stop {α : Type} (p : α → Bool) (xs : List α) (y : α) (ys : List α)
    (h2 : p y = false) : (xs ++ y :: ys).takeWhile p = xs.takeWhile p := by
  induction xs with
  | nil => simp [List.takeWhile_cons, h2]
  | cons a as ih =>
      by_cases ha : p a = true
      · simp only [List.cons_append, List.takeWhile_cons, ha, if_true, ih]
      · rw [Bool.not_eq_true] at ha
        simp [List.takeWhile_cons, ha]

theorem takeWhile_all {α : Type} (p : α → Bool) (l : List α)
    (h : ∀ x ∈ l, p x = true) : l.takeWhile p = l := by
  induction l with
  | nil => rfl
  | cons a as ih =>
      rw [List.takeWhile_cons, if_pos (h a (List.mem_cons_self a as)),
        ih (fun x hx => h x (List.mem_cons_of_mem a hx))]

/-- Basename of a path that ends in a slash-free component. -/
theorem basenameL_append (a b : List Char) :
    basenameL (a ++ '/' :: b) = basenameL b := by
  unfold basenameL
  have h : (a ++ '/' :: b).reverse = b.reverse ++ '/' :: a.reverse := by
    rw [List.reverse_append, List.reverse_cons, List.append_assoc, List.singleton_append]
  rw [h, takeWhile_append_stop _ b.reverse '/' a.reverse (by decide)]

theorem basenameL_no_slash (b : List Char) (h : ∀ c ∈ b, ¬ c = '/') :
    basenameL b = b := by
  unfold basenameL
  rw [takeWhile_all _ b.reverse
    (fun x hx => by simpa using h x (List.mem_reverse.mp hx)), List.reverse_reverse]

theorem splitext_fst_subset (s : List Char) : ∀ c ∈ (splitext s).1, c ∈ s := by
  intro c hc
  unfold splitext at hc
  split at hc
  next rootRev heq =>
    split_ifs at hc
    · rw [List.mem_reverse] at hc
      have h1 : c ∈ '.' :: rootRev := List.mem_cons_of_mem '.' hc
      rw [← heq] at h1
      have h2 := (List.dropWhile_sublist (fun c => !(c = '.'))).subset h1
      exact List.mem_reverse.mp h2
    · exact hc
  next => exact hc

theorem removeExtensionsF_subset :
    ∀ (fuel : Nat) (s : List Char) (exts : List (List Char)) (c : Char),
      c ∈ removeExtensionsF fuel s exts → c ∈ s := by
  intro fuel
  induction fuel with
  | zero => intro s exts c hc; exact hc
  | succ n ih =>
      intro s exts c hc
      simp only [removeExtensionsF] at hc
      split_ifs at hc
      · exact splitext_fst_subset s c (ih (splitext s).1 exts c hc)
      · exact hc

/-- Rendered output names contain no slash, so `os.path.basename` of a
keyword target recovers exactly the output filename. -/
theorem result_name_no_slash (s lvl : String) :
    ∀ c ∈ (result_name s lvl).data, ¬ c = '/' := by
  intro c hc
  unfold result_name at hc
  rw [String.data_append] at hc
  rcases List.mem_append.mp hc with hc | hc
  · have h1 : c ∈ basenameL s.data :=
      removeExtensionsF_subset _ _ _ c hc
    unfold basenameL at h1
    rw [List.mem_reverse] at h1
    have h2 := List.mem_takeWhile_imp h1
    simpa using h2
  · have hh : ∀ x ∈ ".html".data, ¬ x = '/' := by decide
    exact hh c hc

theorem basename_target (x rn : String) (h : ∀ c ∈ rn.data, ¬ c = '/') :
    basename (x ++ "/" ++ rn) = rn := by
  unfold basename
  have hd : (x ++ "/" ++ rn).data = x.data ++ '/' :: rn.data := by
    rw [String.data_append, String.data_append]
    simp
  rw [hd, basenameL_append, basenameL_no_slash rn.data h]

theorem mtimeClose_self (t : Mtime) : mtimeClose t t = true := by
  rw [mtimeClose_iff]
  simp

/-- `writeFile` puts the written file in the directory. -/
theorem writeFile_mem_self (fs : List OutFile) (n c : String) (m : Mtime) :
    (⟨n, c, m⟩ : OutFile) ∈ writeFile fs n c m := by
  unfold writeFile
  split_ifs with h
  · rw [List.any_eq_true] at h
    obtain ⟨f, hf, hfn⟩ := h
    rw [decide_eq_true_eq] at hfn
    exact List.mem_map.mpr ⟨f, hf, by rw [if_pos hfn]⟩
  · exact List.mem_append.mpr (Or.inr (List.mem_singleton.mpr rfl))

/-- `writeFile` leaves files of other names alone. -/
theorem writeFile_mem_other (fs : List OutFile) (n c : String) (m : Mtime)
    (f : OutFile) (hf : f ∈ fs) (hne : ¬ f.name = n) :
    f ∈ writeFile fs n c m := by
  unfold writeFile
  split_ifs with h
  · exact List.mem_map.mpr ⟨f, hf, by rw [if_neg hne]⟩
  · exact List.mem_append.mpr (Or.inl hf)

/-- `writeFile` preserves distinctness of the directory's filenames. -/
theorem writeFile_names_nodup (fs : List OutFile) (n c : String) (m : Mtime)
    (h : (fs.map OutFile.name).Nodup) :
    ((writeFile fs n c m).map OutFile.name).Nodup := by
  unfold writeFile
  split_ifs with hany
  · have : (fs.map (fun f => if f.name = n then (⟨n, c, m⟩ : OutFile) else f)).map
        OutFile.name = fs.map OutFile.name := by
      rw [List.map_map]
      refine List.map_congr_left ?_
      intro f _
      by_cases hf : f.name = n
      · simp [hf]
      · simp [hf]
    rw [this]
    exact h
  · rw [List.map_append, List.nodup_append]
    refine ⟨h, by simp, ?_⟩
    intro x hx
    simp only [List.map_cons, List.map_nil, List.mem_singleton]
    intro hxn
    rw [List.mem_map] at hx
    obtain ⟨f, hf, hfn⟩ := hx
    rw [List.any_eq_true] at hany
    push_neg at hany
    exact hany f hf (decide_eq_true (hfn.trans hxn))

/-- In a directory with distinct names, `find?` on a name finds exactly
the member carrying it. -/
theorem find?_of_mem_nodup :
    ∀ (fs : List OutFile) (f : OutFile) (rn : String),
      f ∈ fs → (fs.map OutFile.name).Nodup → f.name = rn →
      fs.find? (fun g => g.name = rn) = some f := by
  intro fs
  induction fs with
  | nil => intro f rn hf _ _; exact absurd hf (by simp)
  | cons g tl ih =>
      intro f rn hf hnd hfn
      have hnd' : g.name ∉ tl.map OutFile.name ∧ (tl.map OutFile.name).Nodup := by
        rw [List.map_cons, List.nodup_cons] at hnd
        exact hnd
      by_cases hg : g.name = rn
      · have hfg : f = g := by
          rcases List.mem_cons.mp hf with h | h
          · exact h
          · exfalso
            have h1 : rn ∈ tl.map OutFile.name :=
              List.mem_map.mpr ⟨f, h, hfn⟩
            rw [← hg] at h1
            exact hnd'.1 h1
        subst hfg
        exact List.find?_cons_of_pos tl (by simp [hg])
      · rw [List.find?_cons_of_neg tl (by simp [hg])]
        have hf' : f ∈ tl := by
          rcases List.mem_cons.mp hf with h | h
          · exact absurd (h ▸ hfn) hg
          · exact h
        exact ih f rn hf' hnd'.2 hfn

/-- The gate says skip only if the output file exists with a close mtime. -/
theorem stalenessSkip_true_elim (fo : Bool) (om : Option Mtime) (sm : Mtime)
    (h : stalenessSkip fo om sm = true) :
    ∃ m', om = some m' ∧ mtimeClose m' sm = true := by
  cases om with
  | none => exact absurd h (by simp [stalenessSkip])
  | some m' =>
      refine ⟨m', rfl, ?_⟩
      simp only [stalenessSkip, Bool.and_eq_true] at h
      exact h.2

/-- Expected output basename of an entry, when `src` yields text for it. -/
def textOutName (env : Env) (e : SrcEntry) : Option String :=
  match srcFn env.manDirs e with
  | some (SrcOut.text n _) => some (result_name n env.level)
  | _ => none

theorem stepEntry_src_none (env : Env) (st : LoopSt) (e : SrcEntry)
    (hm : e.presentAtMtime = true) (hsrc : srcFn env.manDirs e = none) :
    stepEntry env st e = Except.ok st := by
  simp [stepEntry, hm, hsrc]

theorem stepEntry_src_alias (env : Env) (st : LoopSt) (e : SrcEntry)
    (name cand : String)
    (hm : e.presentAtMtime = true)
    (hsrc : srcFn env.manDirs e = some (SrcOut.alias name cand)) :
    stepEntry env st e = Except.ok { st with
      keywords := st.keywords
        ++ [⟨name, env.cachePath ++ "/html." ++ env.level ++ "/" ++ result_name cand env.level,
              true⟩] } := by
  simp [stepEntry, hm, hsrc]

theorem stepEntry_text_skip (env : Env) (st : LoopSt) (e : SrcEntry) (n d : String)
    (hm : e.presentAtMtime = true)
    (hsrc : srcFn env.manDirs e = some (SrcOut.text n d))
    (hgate : stalenessSkip env.force
      ((st.outFiles.find? (fun f => f.name = result_name n env.level)).map OutFile.mtime)
      e.mtime = true) :
    stepEntry env st e = Except.ok { st with
      keywords := st.keywords
        ++ [⟨n, env.cachePath ++ "/html." ++ env.level ++ "/" ++ result_name n env.level,
              false⟩] } := by
  simp [stepEntry, hm, hsrc, hgate]

theorem stepEntry_text_write (env : Env) (st : LoopSt) (e : SrcEntry) (n d : String)
    (hm : e.presentAtMtime = true)
    (hsrc : srcFn env.manDirs e = some (SrcOut.text n d))
    (hgate : stalenessSkip env.force
      ((st.outFiles.find? (fun f => f.name = result_name n env.level)).map OutFile.mtime)
      e.mtime = false)
    (hrc : (env.conv n d).returncode = 0) :
    stepEntry env st e = Except.ok { st with
      keywords := st.keywords
        ++ [⟨n, env.cachePath ++ "/html." ++ env.level ++ "/" ++ result_name n env.level,
              false⟩],
      crossRefs := st.crossRefs
        ++ (manLinkSub (postTitle env.level (env.conv n d).stdout).data).2,
      outFiles := writeFile st.outFiles (result_name n env.level)
        (String.mk (manLinkSub (postTitle env.level (env.conv n d).stdout).data).1) e.mtime,
      images := addImages st.images (env.conv n d).images,
      convCount := st.convCount + 1 } := by
  simp [stepEntry, hm, hsrc, hgate, hrc]

/-- First-run postcondition: the loop completes, output filenames stay
distinct, every text page ends with an output file of its expected name
whose mtime is within a second of the source's (freshly written at the
exact source mtime, or the one the staleness gate accepted), and files
whose names no entry renders to are left untouched. -/
theorem runEntries_run1 (env : Env)
    (hconv : ∀ n d, (env.conv n d).returncode = 0) :
    ∀ (entries : List SrcEntry) (st : LoopSt),
      (∀ e ∈ entries, e.presentAtMtime = true) →
      (st.outFiles.map OutFile.name).Nodup →
      (entries.filterMap (textOutName env)).Nodup →
      ∃ st', runEntries env st entries = Except.ok st' ∧
        (st'.outFiles.map OutFile.name).Nodup ∧
        (∀ e ∈ entries, ∀ n d, srcFn env.manDirs e = some (SrcOut.text n d) →
          ∃ f ∈ st'.outFiles,
            f.name = result_name n env.level ∧ mtimeClose f.mtime e.mtime = true) ∧
        (∀ f ∈ st.outFiles, f.name ∉ entries.filterMap (textOutName env) →
          f ∈ st'.outFiles) := by
  intro entries
  induction entries with
  | nil =>
      intro st _ hnd _
      exact ⟨st, rfl, hnd, by simp, fun f hf _ => hf⟩
  | cons e es ih =>
      intro st hp hnd hfm
      have hm : e.presentAtMtime = true := hp e (List.mem_cons_self e es)
      have hp' : ∀ x ∈ es, x.presentAtMtime = true :=
        fun x hx => hp x (List.mem_cons_of_mem e hx)
      cases hsrc : srcFn env.manDirs e with
      | none =>
          have hT : textOutName env e = none := by simp [textOutName, hsrc]
          have hfm' : (es.filterMap (textOutName env)).Nodup := by
            rwa [List.filterMap_cons, hT] at hfm
          obtain ⟨st', hrun, hnd', ha, hb⟩ := ih st hp' hnd hfm'
          refine ⟨st', ?_, hnd', ?_, ?_⟩
          · simp only [runEntries, stepEntry_src_none env st e hm hsrc]
            exact hrun
          · intro x hx n d hx2
            rcases List.mem_cons.mp hx with rfl | hx
            · rw [hsrc] at hx2; exact absurd hx2 (by simp)
            · exact ha x hx n d hx2
          · intro f hf hnin
            rw [List.filterMap_cons, hT] at hnin
            exact hb f hf hnin
      | some so =>
          rcases so with ⟨n, d⟩ | ⟨name, cand⟩
          · -- text page
            have hT : textOutName env e = some (result_name n env.level) := by
              simp [textOutName, hsrc]
            have hfm2 : (result_name n env.level
                :: es.filterMap (textOutName env)).Nodup := by
              rwa [List.filterMap_cons, hT] at hfm
            have hrn_nin : result_name n env.level ∉ es.filterMap (textOutName env) :=
              (List.nodup_cons.mp hfm2).1
            have hfm' : (es.filterMap (textOutName env)).Nodup :=
              (List.nodup_cons.mp hfm2).2
            by_cases hgate : stalenessSkip env.force
                ((st.outFiles.find? (fun f => f.name = result_name n env.level)).map
                  OutFile.mtime) e.mtime = true
            · -- skipped as unchanged
              obtain ⟨m', hfind, hclose⟩ := stalenessSkip_true_elim _ _ _ hgate
              rw [Option.map_eq_some'] at hfind
              obtain ⟨g, hg, hgm⟩ := hfind
              have hgmem : g ∈ st.outFiles := List.mem_of_find?_eq_some hg
              have hgname : g.name = result_name n env.level := by
                have := List.find?_some hg
                simpa using this
              obtain ⟨st', hrun, hnd', ha, hb⟩ :=
                ih { st with keywords := st.keywords
                    ++ [⟨n, env.cachePath ++ "/html." ++ env.level ++ "/"
                          ++ result_name n env.level, false⟩] } hp' hnd hfm'
              refine ⟨st', ?_, hnd', ?_, ?_⟩
              · simp only [runEntries, stepEntry_text_skip env st e n d hm hsrc hgate]
                exact hrun
              · intro x hx n' d' hx2
                rcases List.mem_cons.mp hx with rfl | hx
                · rw [hsrc] at hx2
                  have hx3 := Option.some_inj.mp hx2
                  obtain ⟨rfl, rfl⟩ : n = n' ∧ d = d' := by
                    cases hx3; exact ⟨rfl, rfl⟩
                  refine ⟨g, hb g hgmem ?_, hgname, ?_⟩
                  · rw [hgname]; exact hrn_nin
                  · rw [hgm]; exact hclose
                · exact ha x hx n' d' hx2
              · intro f hf hnin
                rw [List.filterMap_cons, hT] at hnin
                exact hb f hf (fun hc => hnin (List.mem_cons_of_mem _ hc))
            · -- converted and written at the source mtime
              rw [Bool.not_eq_true] at hgate
              have hrc := hconv n d
              obtain ⟨st', hrun, hnd', ha, hb⟩ :=
                ih { st with
                  keywords := st.keywords
                    ++ [⟨n, env.cachePath ++ "/html." ++ env.level ++ "/"
                          ++ result_name n env.level, false⟩],
                  crossRefs := st.crossRefs
                    ++ (manLinkSub (postTitle env.level (env.conv n d).stdout).data).2,
                  outFiles := writeFile st.outFiles (result_name n env.level)
                    (String.mk (manLinkSub (postTitle env.level (env.conv n d).stdout).data).1)
                    e.mtime,
                  images := addImages st.images (env.conv n d).images,
                  convCount := st.convCount + 1 } hp'
                  (writeFile_names_nodup st.outFiles _ _ _ hnd) hfm'
              refine ⟨st', ?_, hnd', ?_, ?_⟩
              · simp only [runEntries, stepEntry_text_write env st e n d hm hsrc hgate hrc]
                exact hrun
              · intro x hx n' d' hx2
                rcases List.mem_cons.mp hx with rfl | hx
                · rw [hsrc] at hx2
                  have hx3 := Option.some_inj.mp hx2
                  obtain ⟨rfl, rfl⟩ : n = n' ∧ d = d' := by
                    cases hx3; exact ⟨rfl, rfl⟩
                  refine ⟨⟨result_name n env.level,
                      String.mk (manLinkSub (postTitle env.level (env.conv n d).stdout).data).1,
                      x.mtime⟩, hb _ (writeFile_mem_self st.outFiles _ _ _) hrn_nin,
                    rfl, mtimeClose_self x.mtime⟩
                · exact ha x hx n' d' hx2
              · intro f hf hnin
                rw [List.filterMap_cons, hT] at hnin
                have hne : ¬ f.name = result_name n env.level :=
                  fun h => hnin (h ▸ List.mem_cons_self _ _)
                exact hb f (writeFile_mem_other st.outFiles _ _ _ f hf hne)
                  (fun hc => hnin (List.mem_cons_of_mem _ hc))
          · -- resolved alias: keyword only, no filesystem effect
            have hT : textOutName env e = none := by simp [textOutName, hsrc]
            have hfm' : (es.filterMap (textOutName env)).Nodup := by
              rwa [List.filterMap_cons, hT] at hfm
            obtain ⟨st', hrun, hnd', ha, hb⟩ :=
              ih { st with keywords := st.keywords
                  ++ [⟨name, env.cachePath ++ "/html." ++ env.level ++ "/"
                        ++ result_name cand env.level, true⟩] } hp' hnd hfm'
            refine ⟨st', ?_, hnd', ?_, ?_⟩
            · simp only [runEntries, stepEntry_src_alias env st e name cand hm hsrc]
              exact hrun
            · intro x hx n d hx2
              rcases List.mem_cons.mp hx with rfl | hx
              · rw [hsrc] at hx2; exact absurd hx2 (by simp)
              · exact ha x hx n d hx2
            · intro f hf hnin
              rw [List.filterMap_cons, hT] at hnin
              exact hb f hf hnin

/-- Second-run behaviour: with the force switch off, every text page
finding its up-to-date output file in place, the loop only re-registers
the keywords — no conversion, no write, no image, no error, no
cross-reference. -/
theorem runEntries_run2 (env : Env) (hforce : env.force = false) :
    ∀ (entries : List SrcEntry) (st : LoopSt),
      (∀ e ∈ entries, e.presentAtMtime = true) →
      (st.outFiles.map OutFile.name).Nodup →
      (∀ e ∈ entries, ∀ n d, srcFn env.manDirs e = some (SrcOut.text n d) →
        ∃ f ∈ st.outFiles,
          f.name = result_name n env.level ∧ mtimeClose f.mtime e.mtime = true) →
      ∃ st', runEntries env st entries = Except.ok st' ∧
        st'.outFiles = st.outFiles ∧ st'.images = st.images ∧
        st'.convCount = st.convCount ∧ st'.hasErrors = st.hasErrors ∧
        st'.crossRefs = st.crossRefs ∧
        st'.keywords = st.keywords ++ entries.filterMap (entryKeyword env) := by
  intro entries
  induction entries with
  | nil => intro st _ _ _; exact ⟨st, rfl, rfl, rfl, rfl, rfl, rfl, by simp⟩
  | cons e es ih =>
      intro st hp hnd hup
      have hm : e.presentAtMtime = true := hp e (List.mem_cons_self e es)
      have hp' : ∀ x ∈ es, x.presentAtMtime = true :=
        fun x hx => hp x (List.mem_cons_of_mem e hx)
      have hup' : ∀ x ∈ es, ∀ n d, srcFn env.manDirs x = some (SrcOut.text n d) →
          ∃ f ∈ st.outFiles,
            f.name = result_name n env.level ∧ mtimeClose f.mtime x.mtime = true :=
        fun x hx => hup x (List.mem_cons_of_mem e hx)
      cases hsrc : srcFn env.manDirs e with
      | none =>
          obtain ⟨st', hrun, h1, h2, h3, h4, h5, h6⟩ := ih st hp' hnd hup'
          refine ⟨st', ?_, h1, h2, h3, h4, h5, ?_⟩
          · simp only [runEntries, stepEntry_src_none env st e hm hsrc]
            exact hrun
          · rw [h6, List.filterMap_cons]
            simp [entryKeyword, hsrc]
      | some so =>
          rcases so with ⟨n, d⟩ | ⟨name, cand⟩
          · -- text page: the gate skips
            obtain ⟨f, hfmem, hfname, hfclose⟩ :=
              hup e (List.mem_cons_self e es) n d hsrc
            have hfind : st.outFiles.find? (fun g => g.name = result_name n env.level)
                = some f := find?_of_mem_nodup st.outFiles f _ hfmem hnd hfname
            have hgate : stalenessSkip env.force
                ((st.outFiles.find? (fun g => g.name = result_name n env.level)).map
                  OutFile.mtime) e.mtime = true := by
              rw [hfind]
              simp only [Option.map_some', stalenessSkip, hforce, Bool.not_false,
                Bool.true_and]
              exact hfclose
            obtain ⟨st', hrun, h1, h2, h3, h4, h5, h6⟩ :=
              ih { st with keywords := st.keywords
                  ++ [⟨n, env.cachePath ++ "/html." ++ env.level ++ "/"
                        ++ result_name n env.level, false⟩] } hp' hnd hup'
            refine ⟨st', ?_, h1, h2, h3, h4, h5, ?_⟩
            · simp only [runEntries, stepEntry_text_skip env st e n d hm hsrc hgate]
              exact hrun
            · rw [h6, List.filterMap_cons]
              simp [entryKeyword, hsrc]
          · -- resolved alias
            obtain ⟨st', hrun, h1, h2, h3, h4, h5, h6⟩ :=
              ih { st with keywords := st.keywords
                  ++ [⟨name, env.cachePath ++ "/html." ++ env.level ++ "/"
                        ++ result_name cand env.level, true⟩] } hp' hnd hup'
            refine ⟨st', ?_, h1, h2, h3, h4, h5, ?_⟩
            · simp only [runEntries, stepEntry_src_alias env st e name cand hm hsrc]
              exact hrun
            · rw [h6, List.filterMap_cons]
              simp [entryKeyword, hsrc]

theorem list_contains_of_mem {α : Type _} [BEq α] [LawfulBEq α] (l : List α) (a : α)
    (h : a ∈ l) : l.contains a = true :=
  List.contains_iff_exists_mem_beq.mpr ⟨a, h, by simp⟩

/-- `do_level` on a loop that completes: the observable outcome. -/
theorem doLevel_ok (env : Env) (entries : List SrcEntry) (fsA : List OutFile)
    (imgsA : List String) (st : LoopSt)
    (h : runEntries env ⟨[], [], false, fsA, imgsA, 0⟩ entries = Except.ok st) :
    doLevel env entries fsA imgsA =
      { err := none, keywords := st.keywords, crossRefs := st.crossRefs,
        hasErrors := st.hasErrors,
        outFiles := gcHtml env.origCwdFiles
          ((st.keywords.filter (fun kw => !kw.is_alias)).map
            (fun kw => basename kw.target)) st.outFiles,
        images := gcImages
          ((st.keywords.filter (fun kw => !kw.is_alias)).map Keyword.keyword) st.images,
        convCount := st.convCount, finalCwd := env.origCwd } := by
  simp only [doLevel, h]

/-- **C1 (amended).**  With no source changes between two consecutive
runs, force off, all sources present, every conversion succeeding, and
distinct sources rendering to distinct output names, the second run
reproduces the first run's output directory, images directory and
keywords exactly, invokes the converter zero times, and yields an
identical catalog.  (The counterexample shows why the two extra
hypotheses are needed: a failing conversion, or two sources sharing one
output name, make the second run call the converter again.) -/
theorem claim_C1 (env : Env) (entries : List SrcEntry) (fs0 : List OutFile)
    (imgs0 : List String) (ns : String)
    (hforce : env.force = false)
    (hpres : ∀ e ∈ entries, e.presentAtMtime = true)
    (hconv : ∀ n d, (env.conv n d).returncode = 0)
    (hnames : (entries.filterMap (textOutName env)).Nodup)
    (hfs0 : (fs0.map OutFile.name).Nodup) :
    (doLevel env entries fs0 imgs0).err = none
    ∧ (doLevel env entries (doLevel env entries fs0 imgs0).outFiles
        (doLevel env entries fs0 imgs0).images).outFiles
      = (doLevel env entries fs0 imgs0).outFiles
    ∧ (doLevel env entries (doLevel env entries fs0 imgs0).outFiles
        (doLevel env entries fs0 imgs0).images).images
      = (doLevel env entries fs0 imgs0).images
    ∧ (doLevel env entries (doLevel env entries fs0 imgs0).outFiles
        (doLevel env entries fs0 imgs0).images).keywords
      = (doLevel env entries fs0 imgs0).keywords
    ∧ (doLevel env entries (doLevel env entries fs0 imgs0).outFiles
        (doLevel env entries fs0 imgs0).images).convCount = 0
    ∧ catalogText ns [(env.level,
        (doLevel env entries (doLevel env entries fs0 imgs0).outFiles
          (doLevel env entries fs0 imgs0).images).keywords)]
      = catalogText ns [(env.level, (doLevel env entries fs0 imgs0).keywords)] := by
  obtain ⟨st1, hrun1, hnd1, ha1, hb1⟩ :=
    runEntries_run1 env hconv entries ⟨[], [], false, fs0, imgs0, 0⟩ hpres hfs0 hnames
  obtain ⟨st1', hrun1', hkw1⟩ :=
    runEntries_keywords env entries ⟨[], [], false, fs0, imgs0, 0⟩ hpres
  rw [hrun1] at hrun1'
  injection hrun1' with hinj
  subst hinj
  have hkw : st1.keywords = entries.filterMap (entryKeyword env) := by simpa using hkw1
  have ho1 := doLevel_ok env entries fs0 imgs0 st1 hrun1
  have hsurv : ∀ e ∈ entries, ∀ n d, srcFn env.manDirs e = some (SrcOut.text n d) →
      ∃ f ∈ (doLevel env entries fs0 imgs0).outFiles,
        f.name = result_name n env.level ∧ mtimeClose f.mtime e.mtime = true := by
    intro e he n d hsrc
    obtain ⟨f, hf, hfn, hfc⟩ := ha1 e he n d hsrc
    refine ⟨f, ?_, hfn, hfc⟩
    rw [ho1]
    show f ∈ gcHtml _ _ _
    unfold gcHtml
    rw [List.mem_filter]
    refine ⟨hf, ?_⟩
    have hkwmem : (⟨n, env.cachePath ++ "/html." ++ env.level ++ "/"
        ++ result_name n env.level, false⟩ : Keyword) ∈ st1.keywords := by
      rw [hkw]
      exact List.mem_filterMap.mpr ⟨e, he, by simp [entryKeyword, hsrc]⟩
    have hlf : f.name ∈ (st1.keywords.filter (fun kw => !kw.is_alias)).map
        (fun kw => basename kw.target) := by
      refine List.mem_map.mpr
        ⟨⟨n, env.cachePath ++ "/html." ++ env.level ++ "/" ++ result_name n env.level,
            false⟩,
          List.mem_filter.mpr ⟨hkwmem, by simp⟩, ?_⟩
      rw [hfn]
      exact basename_target _ _ (result_name_no_slash n env.level)
    have hc := list_contains_of_mem _ _ hlf
    rw [hc]
    simp
  have hnd_o1 : ((doLevel env entries fs0 imgs0).outFiles.map OutFile.name).Nodup := by
    rw [ho1]
    exact List.Nodup.sublist
      (List.Sublist.map OutFile.name (List.filter_sublist st1.outFiles)) hnd1
  obtain ⟨st2, hrun2, g1, g2, g3, g4, g5, g6⟩ :=
    runEntries_run2 env hforce entries
      ⟨[], [], false, (doLevel env entries fs0 imgs0).outFiles,
        (doLevel env entries fs0 imgs0).images, 0⟩ hpres hnd_o1 hsurv
  have ho2 := doLevel_ok env entries (doLevel env entries fs0 imgs0).outFiles
    (doLevel env entries fs0 imgs0).images st2 hrun2
  have hkw2 : st2.keywords = st1.keywords := by
    rw [g6, hkw]
    simp
  have hkeq : (doLevel env entries (doLevel env entries fs0 imgs0).outFiles
      (doLevel env entries fs0 imgs0).images).keywords
      = (doLevel env entries fs0 imgs0).keywords := by
    rw [ho2, ho1]
    exact hkw2
  refine ⟨by rw [ho1], ?_, ?_, hkeq, ?_, ?_⟩
  · rw [ho2]
    show gcHtml _ _ st2.outFiles = _
    rw [hkw2, g1]
    conv_lhs => rw [ho1]
    conv_rhs => rw [ho1]
    show gcHtml _ _ (gcHtml _ _ st1.outFiles) = gcHtml _ _ st1.outFiles
    exact List.filter_eq_self.mpr (fun f hf => (List.mem_filter.mp hf).2)
  · rw [ho2]
    show gcImages _ st2.images = _
    rw [hkw2, g2]
    conv_lhs => rw [ho1]
    conv_rhs => rw [ho1]
    show gcImages _ (gcImages _ st1.images) = gcImages _ st1.images
    exact List.filter_eq_self.mpr (fun f hf => (List.mem_filter.mp hf).2)
  · rw [ho2]
    show st2.convCount = 0
    rw [g3]
  · rw [hkeq]

/-- Witness for C1: a concrete successful one-page run is idempotent. -/
theorem claim_C1_witness :
    (doLevel (mkEnv convTitleT [] []) [⟨"foo.2", 5, "hello", true, true⟩] [] []).err = none
    ∧ (doLevel (mkEnv convTitleT [] [])
        [⟨"foo.2", 5, "hello", true, true⟩]
        (doLevel (mkEnv convTitleT [] []) [⟨"foo.2", 5, "hello", true, true⟩] [] []).outFiles
        (doLevel (mkEnv convTitleT [] [])
          [⟨"foo.2", 5, "hello", true, true⟩] [] []).images).outFiles
      = (doLevel (mkEnv convTitleT [] []) [⟨"foo.2", 5, "hello", true, true⟩] [] []).outFiles
    ∧ (doLevel (mkEnv convTitleT [] [])
        [⟨"foo.2", 5, "hello", true, true⟩]
        (doLevel (mkEnv convTitleT [] []) [⟨"foo.2", 5, "hello", true, true⟩] [] []).outFiles
        (doLevel (mkEnv convTitleT [] [])
          [⟨"foo.2", 5, "hello", true, true⟩] [] []).images).images
      = (doLevel (mkEnv convTitleT [] []) [⟨"foo.2", 5, "hello", true, true⟩] [] []).images
    ∧ (doLevel (mkEnv convTitleT [] [])
        [⟨"foo.2", 5, "hello", true, true⟩]
        (doLevel (mkEnv convTitleT [] []) [⟨"foo.2", 5, "hello", true, true⟩] [] []).outFiles
        (doLevel (mkEnv convTitleT [] [])
          [⟨"foo.2", 5, "hello", true, true⟩] [] []).images).keywords
      = (doLevel (mkEnv convTitleT [] []) [⟨"foo.2", 5, "hello", true, true⟩] [] []).keywords
    ∧ (doLevel (mkEnv convTitleT [] [])
        [⟨"foo.2", 5, "hello", true, true⟩]
        (doLevel (mkEnv convTitleT [] []) [⟨"foo.2", 5, "hello", true, true⟩] [] []).outFiles
        (doLevel (mkEnv convTitleT [] [])
          [⟨"foo.2", 5, "hello", true, true⟩] [] []).images).convCount = 0
    ∧ catalogText "man.linux.org.1.0" [("2",
        (doLevel (mkEnv convTitleT [] [])
          [⟨"foo.2", 5, "hello", true, true⟩]
          (doLevel (mkEnv convTitleT [] [])
            [⟨"foo.2", 5, "hello", true, true⟩] [] []).outFiles
          (doLevel (mkEnv convTitleT [] [])
            [⟨"foo.2", 5, "hello", true, true⟩] [] []).images).keywords)]
      = catalogText "man.linux.org.1.0" [("2",
          (doLevel (mkEnv convTitleT [] [])
            [⟨"foo.2", 5, "hello", true, true⟩] [] []).keywords)] :=
  claim_C1 (mkEnv convTitleT [] []) [⟨"foo.2", 5, "hello", true, true⟩] [] []
    "man.linux.org.1.0" rfl (by decide) (fun _ _ => rfl) (by decide) (by decide)

/-- **C1 (counterexample).**  As stated, the claim fails on the code:
(i) with a converter that always exits nonzero and an unchanged one-page
tree, both the first and the second run invoke the converter (once each,
not zero); (ii) with two present, unchanged sources `foo.2` and
`foo.2.gz` rendering to the same `foo.html` but carrying different
mtimes, every run — the second included — invokes the converter twice. -/
theorem claim_C1_counterexample :
    (doLevel (mkEnv convFail [] []) [⟨"foo.2", 0, "hello", true, true⟩] [] []).convCount = 1
    ∧ (doLevel (mkEnv convFail [] []) [⟨"foo.2", 0, "hello", true, true⟩]
        (doLevel (mkEnv convFail [] []) [⟨"foo.2", 0, "hello", true, true⟩] [] []).outFiles
        (doLevel (mkEnv convFail [] [])
          [⟨"foo.2", 0, "hello", true, true⟩] [] []).images).convCount = 1
    ∧ (mkEnv convFail [] []).force = false
    ∧ (doLevel (mkEnv convTitleT [] [])
        [⟨"foo.2", 0, "a", true, true⟩, ⟨"foo.2.gz", 10, "b", true, true⟩]
        (doLevel (mkEnv convTitleT [] [])
          [⟨"foo.2", 0, "a", true, true⟩, ⟨"foo.2.gz", 10, "b", true, true⟩] [] []).outFiles
        (doLevel (mkEnv convTitleT [] [])
          [⟨"foo.2", 0, "a", true, true⟩,
           ⟨"foo.2.gz", 10, "b", true, true⟩] [] []).images).convCount = 2 := by
  refine ⟨?_, ?_, ?_, ?_⟩ <;> decide

/-- **C4.**  Evaluation of the alias pipeline on `.so select.2`:
* with the single candidate `select.2.gz`, the code emits an alias
  Keyword whose target basename is `select.2.gz.html` — not the
  `select.html` the claim requires, and not the name the target page
  itself renders to (`result_name` strips `.bz2` but not `.gz`);
* with the single candidate `select.2.bz2` the target is `select.html`
  as claimed;
* with zero or two candidates, no Keyword, no abort, no error flag. -/
theorem claim_C4 :
    (doLevel (mkEnv convTitleT [(2, ["select.2.gz"])] [])
        [⟨"oldselect.2", 0, ".so select.2", true, true⟩] [] []).keywords
      = [⟨"oldselect", "/c/html.2/select.2.gz.html", true⟩]
    ∧ srcName "select.2.gz" = "select"
    ∧ result_name (srcName "select.2.gz") "2" = "select.html"
    ∧ result_name "/usr/share/man/man2/select.2.gz" "2" = "select.2.gz.html"
    ∧ (doLevel (mkEnv convTitleT [(2, ["select.2.bz2"])] [])
        [⟨"oldselect.2", 0, ".so select.2", true, true⟩] [] []).keywords
      = [⟨"oldselect", "/c/html.2/select.html", true⟩]
    ∧ (doLevel (mkEnv convTitleT [(2, [])] [])
        [⟨"oldselect.2", 0, ".so select.2", true, true⟩] [] []).keywords = []
    ∧ (doLevel (mkEnv convTitleT [(2, [])] [])
        [⟨"oldselect.2", 0, ".so select.2", true, true⟩] [] []).hasErrors = false
    ∧ (doLevel (mkEnv convTitleT [(2, [])] [])
        [⟨"oldselect.2", 0, ".so select.2", true, true⟩] [] []).err = none
    ∧ (doLevel (mkEnv convTitleT [(2, ["select.2.gz", "select.2.bz2"])] [])
        [⟨"oldselect.2", 0, ".so select.2", true, true⟩] [] []).keywords = []
    ∧ (doLevel (mkEnv convTitleT [(2, ["select.2.gz", "select.2.bz2"])] [])
        [⟨"oldselect.2", 0, ".so select.2", true, true⟩] [] []).hasErrors = false
    ∧ (doLevel (mkEnv convTitleT [(2, ["select.2.gz", "select.2.bz2"])] [])
        [⟨"oldselect.2", 0, ".so select.2", true, true⟩] [] []).err = none := by
  refine ⟨?_, ?_, ?_, ?_, ?_, ?_, ?_, ?_, ?_, ?_, ?_⟩ <;> decide

/-- **C5.**  Evaluation of the orphan cleanup: the output directory holds
the orphan `b.html` and the live run registers only `a`; because
`os.path.isfile(file)` is evaluated after `os.chdir(original_dir)` it
tests the original working directory, so with no `b.html` there the
orphan is *retained* — deletion happens only in the accidental case where
the original working directory also has a file named `b.html`. -/
theorem claim_C5 :
    (doLevel (mkEnv convTitleT [] []) [⟨"a.2", 0, "data", true, true⟩]
        [⟨"b.html", "old", 0⟩] []).outFiles.map OutFile.name = ["b.html", "a.html"]
    ∧ (doLevel (mkEnv convTitleT [] ["b.html"]) [⟨"a.2", 0, "data", true, true⟩]
        [⟨"b.html", "old", 0⟩] []).outFiles.map OutFile.name = ["a.html"]
    ∧ (doLevel (mkEnv convTitleT [] []) [⟨"a.2", 0, "data", true, true⟩]
        [⟨"b.html", "old", 0⟩] []).keywords.map Keyword.keyword = ["a"] := by
  refine ⟨?_, ?_, ?_⟩ <;> decide

end Man2Qhelp
